import Mathlib

/-!
Shallow embedding of the reactive core in `src/reactivity.ts` of bup.js.

Data model (mirroring the source):
- a `Signal` holds a `value` and a set `subs` of subscribed effects
  (JS `Set` keeps insertion order; we model it as a duplicate-free list);
- an `Effect` holds its body, a dependency set `deps` of signals, and an
  ordered list `cleanups` of cleanup callbacks (modelled by tokens);
- module-level mutable slots `currentEffect`, the scheduler `queue` of
  pending run procedures (a run procedure is identified with its effect,
  since each effect owns exactly one `run` closure), the `flushing` flag,
  and the number of `queueMicrotask(flush)` callbacks currently pending.

Effect bodies are deep-embedded as command lists (`Cmd`), since an effect
body in the source is an arbitrary closure over the engine's operations:
reads, writes, branches on read values, throwing, `ignore`, `scope`, and
nested `effect` construction.  Values carry a JS-like distinction between
non-function values and function values (`Val.fn`), because the setter
dispatches on `typeof nextValue === "function"`.  `Object.is` is modelled
by decidable equality on `Val`; distinct function allocations carry
distinct `ref` identities.

Ghost state: an observation `log` of events (body begins, tracked reads,
cleanup executions, disposals, and the push in `scope`'s conditional
branch).  The log lets the invariants relate the concrete subscriber and
dependency sets to "what the most recent run actually read" without the
statement degenerating into a tautology.
-/

namespace Bup

/-- Code of a function value, for applying updater-style arguments. -/
inductive FnCode where
  | idC : FnCode
  | constC : Int → FnCode
  | succC : FnCode
deriving DecidableEq, Repr

/-- A JS-like runtime value: `undefined`, a number, or a function value.
A function value carries an allocation identity `ref` (so `Object.is` on
two separately-created closures with the same code is false) and its
behaviour `code`. -/
inductive Val where
  | undef : Val
  | num : Int → Val
  | fn : Nat → FnCode → Val
deriving DecidableEq, Repr

instance : Inhabited Val := ⟨Val.undef⟩

/-- Numeric view of a value (used by updater codes and `add`). -/
def asNum : Val → Int
  | .num n => n
  | _ => 0

/-- Apply a function value's code to an argument. -/
def applyFn : FnCode → Val → Val
  | .idC, v => v
  | .constC k, _ => .num k
  | .succC, v => .num (asNum v + 1)

/-- `typeof v === "function"`. -/
def isFn : Val → Bool
  | .fn _ _ => true
  | _ => false

/-- JS truthiness, restricted to our value type. -/
def truthy : Val → Bool
  | .undef => false
  | .num n => decide (n ≠ 0)
  | .fn _ _ => true

/-- Expressions evaluated inside effect bodies: literals, tracked signal
reads, and addition (enough to express derivations for `computed`). -/
inductive DExpr where
  | lit : Val → DExpr
  | readS : Nat → DExpr
  | add : DExpr → DExpr → DExpr
deriving DecidableEq, Repr

/-- Observation events (ghost): a run's body beginning, a tracked read of
signal `s` registered for effect `e`, a cleanup callback executing, a
disposer completing, and the push performed by the conditional branch at
the end of `scope`. -/
inductive Ev where
  | beginEv : Nat → Ev
  | readEv : Nat → Nat → Ev
  | cleanEv : Nat → Ev
  | disposeEv : Nat → Ev
  | scopePushEv : Ev
deriving DecidableEq, Repr

/-- Commands of an effect body.  `mkEff cs ret` constructs a nested effect
whose body is `cs` and whose body returns the cleanup token `ret` (if any),
mirroring `effect(fn)` where `fn`'s return value, when a function, is
registered as a cleanup. -/
inductive Cmd where
  | readC : Nat → Cmd
  | writeC : Nat → DExpr → Cmd
  | iteC : DExpr → List Cmd → List Cmd → Cmd
  | throwC : Cmd
  | ignoreC : List Cmd → Cmd
  | scopeC : List Cmd → Cmd
  | mkEff : List Cmd → Option Nat → Cmd
deriving Repr

/-- A signal cell: current value and subscriber set (insertion order). -/
structure SigData where
  value : Val
  subs : List Nat
deriving Repr

instance : Inhabited SigData := ⟨⟨Val.undef, []⟩⟩

/-- An effect: its body (commands plus the cleanup token the body returns),
its dependency set `deps`, and its pending cleanup list. -/
structure EffData where
  bodyCmds : List Cmd
  bodyRet : Option Nat
  deps : List Nat
  cleanups : List Nat
deriving Repr

instance : Inhabited EffData := ⟨⟨[], none, [], []⟩⟩

/-- The global state of the reactive engine. `sigs`/`effs` are arenas
indexed by allocation order (`nsigs`/`neffs` are the bump allocators);
`ctx` is `currentEffect`; `queue`, `flushing` belong to the scheduler;
`pending` counts `queueMicrotask(flush)` callbacks not yet fired; `log` is
the ghost observation log. -/
structure St where
  sigs : Nat → SigData
  nsigs : Nat
  effs : Nat → EffData
  neffs : Nat
  ctx : Option Nat
  queue : List Nat
  flushing : Bool
  pending : Nat
  log : List Ev

/-- JS `Set.add`: append if absent (insertion order preserved). -/
def addOnce (x : Nat) (l : List Nat) : List Nat :=
  if x ∈ l then l else l ++ [x]

/-- The signal getter: when a tracking context is active, register the
mutual edge (`signal.subs.add(currentEffect)`, `currentEffect.deps.add(signal)`)
and return the current value; otherwise just return the value. -/
def readSig (s : Nat) (st : St) : Val × St :=
  if s < st.nsigs then
    match st.ctx with
    | some e =>
        ((st.sigs s).value,
          { st with
            sigs := Function.update st.sigs s
              ({ st.sigs s with subs := addOnce e (st.sigs s).subs }),
            effs := Function.update st.effs e
              ({ st.effs e with deps := addOnce s (st.effs e).deps }),
            log := st.log ++ [Ev.readEv e s] })
    | none => ((st.sigs s).value, st)
  else (Val.undef, st)

/-- `schedule(job)`: enqueue if not already present; if no flush is in
progress, set the flag and arrange one microtask flush. -/
def schedule (j : Nat) (st : St) : St :=
  let st1 := if j ∈ st.queue then st else { st with queue := st.queue ++ [j] }
  if st1.flushing then st1
  else { st1 with flushing := true, pending := st1.pending + 1 }

/-- `subs.forEach(sub => schedule(sub.run))`. -/
def notifySubs (subs : List Nat) (st : St) : St :=
  subs.foldl (fun acc j => schedule j acc) st

/-- The candidate next value of the setter:
`typeof nextValue === "function" ? nextValue(prev) : nextValue`. -/
def candidateVal (cur arg : Val) : Val :=
  match arg with
  | .fn _ c => applyFn c cur
  | v => v

/-- The signal setter: compute the candidate value; if `Object.is`-equal to
the current value do nothing, else store it and schedule every subscriber's
run procedure. -/
def writeVal (s : Nat) (arg : Val) (st : St) : St :=
  if s < st.nsigs then
    let cur := (st.sigs s).value
    let nv := candidateVal cur arg
    if nv = cur then st
    else
      notifySubs (st.sigs s).subs
        { st with sigs := Function.update st.sigs s { st.sigs s with value := nv } }
  else st

/-- Evaluate a body expression: tracked reads go through `readSig`. -/
def evalDExpr : DExpr → St → Val × St
  | .lit v, st => (v, st)
  | .readS s, st => readSig s st
  | .add a b, st =>
      let ra := evalDExpr a st
      let rb := evalDExpr b ra.2
      (.num (asNum ra.1 + asNum rb.1), rb.2)

/-- The pure value of a body expression, as a function of signal values
only (used to state `computed` properties). -/
def pureEval (d : DExpr) (vs : Nat → Val) (ns : Nat) : Val :=
  match d with
  | .lit v => v
  | .readS s => if s < ns then vs s else .undef
  | .add a b => .num (asNum (pureEval a vs ns) + asNum (pureEval b vs ns))

/-- Result of running commands: normal completion or a propagating
exception, each carrying the state at that point. -/
inductive Res where
  | ok : St → Res
  | exc : St → Res

/-- The state carried by a result. -/
def Res.state : Res → St
  | .ok st => st
  | .exc st => st

/-- Whether a result is the exception constructor. -/
def Res.isExc : Res → Bool
  | .ok _ => false
  | .exc _ => true

/-- `deps.forEach(signal => signal.subs.delete(effect))`. -/
def unsubscribeAll (e : Nat) (deps : List Nat) (sigs : Nat → SigData) : Nat → SigData :=
  deps.foldl (fun acc s => Function.update acc s { acc s with subs := (acc s).subs.erase e }) sigs

/-- The first half of an effect's `run`: execute and clear the pending
cleanups, unsubscribe from and clear all previous dependencies, install
the effect as the tracking context, and mark the body's begin. -/
def preRun (e : Nat) (st : St) : St :=
  { st with
    sigs := unsubscribeAll e (st.effs e).deps st.sigs,
    effs := Function.update st.effs e { st.effs e with deps := [], cleanups := [] },
    ctx := some e,
    log := st.log ++ (st.effs e).cleanups.map Ev.cleanEv ++ [Ev.beginEv e] }

/-- The second half of an effect's `run`: on normal completion register
the body's returned cleanup (if any); in both cases restore the previous
tracking context (the `finally` block). -/
def addCleanup (e : Nat) (tok : Nat) (st : St) : St :=
  { st with effs := Function.update st.effs e
                ({ st.effs e with cleanups := (st.effs e).cleanups ++ [tok] }) }

/-- Register the cleanup the body returned, if it returned one:
`if (cleanup && typeof cleanup === "function") effect.cleanups.push(cleanup)`. -/
def regRet (e : Nat) (ret : Option Nat) (st : St) : St :=
  match ret with
  | some tok => addCleanup e tok st
  | none => st

def postRun (e : Nat) (ret : Option Nat) (prev : Option Nat) (r : Res) : Res :=
  match r with
  | .ok st => .ok { regRet e ret st with ctx := prev }
  | .exc st => .exc { st with ctx := prev }

mutual

/-- Run one command. -/
def runCmd : Cmd → St → Res
  | .readC s, st => .ok (readSig s st).2
  | .writeC s ex, st =>
      let r := evalDExpr ex st
      .ok (writeVal s r.1 r.2)
  | .iteC c t f, st =>
      let r := evalDExpr c st
      if truthy r.1 then runCmds t r.2 else runCmds f r.2
  | .throwC, st => .exc st
  | .ignoreC cs, st =>
      let prev := st.ctx
      match runCmds cs { st with ctx := none } with
      | .ok st1 => .ok { st1 with ctx := prev }
      | .exc st1 => .exc { st1 with ctx := prev }
  | .scopeC cs, st =>
      let prev := st.ctx
      match runCmds cs { st with ctx := none } with
      | .ok st1 =>
          let st2 := if st1.ctx.isSome
            then { st1 with log := st1.log ++ [Ev.scopePushEv] } else st1
          .ok { st2 with ctx := prev }
      | .exc st1 => .exc { st1 with ctx := prev }
  | .mkEff cs ret, st =>
      let eid := st.neffs
      let st1 := { st with
        effs := Function.update st.effs eid ⟨cs, ret, [], []⟩,
        neffs := st.neffs + 1 }
      postRun eid ret st1.ctx (runCmds cs (preRun eid st1))

/-- Run a command list; an exception aborts the rest. -/
def runCmds : List Cmd → St → Res
  | [], st => .ok st
  | c :: cs, st =>
      match runCmd c st with
      | .ok st1 => runCmds cs st1
      | .exc st1 => .exc st1

end

/-- An effect's `run` procedure, for an effect stored in the arena. -/
def runEffectTop (e : Nat) (st : St) : Res :=
  postRun e (st.effs e).bodyRet st.ctx (runCmds (st.effs e).bodyCmds (preRun e st))

/-- The disposer returned by `effect`: execute the pending cleanups and
remove the effect from every dependency's subscriber set (the source
clears neither the cleanup list nor the dependency set). -/
def disposeRun (e : Nat) (st : St) : St :=
  if e < st.neffs then
    { st with
      sigs := unsubscribeAll e (st.effs e).deps st.sigs,
      log := st.log ++ (st.effs e).cleanups.map Ev.cleanEv ++ [Ev.disposeEv e] }
  else st

/-- `effect(fn)`: allocate the effect and run it once, synchronously. -/
def newEffRun (cs : List Cmd) (ret : Option Nat) (st : St) : St :=
  let eid := st.neffs
  let st1 := { st with
    effs := Function.update st.effs eid ⟨cs, ret, [], []⟩,
    neffs := st.neffs + 1 }
  (postRun eid ret st1.ctx (runCmds cs (preRun eid st1))).state

/-- `signal(initial)`: allocate a fresh signal. -/
def newSigRun (v : Val) (st : St) : St :=
  { st with
    sigs := Function.update st.sigs st.nsigs ⟨v, []⟩,
    nsigs := st.nsigs + 1 }

/-- `computed(fn)`: an internal signal seeded with `undefined`, plus an
internal effect whose body writes `fn()`'s result into that signal. -/
def computedOp (d : DExpr) (st : St) : St :=
  newEffRun [Cmd.writeC st.nsigs d] none (newSigRun Val.undef st)

/-- `ignore(fn)`: clear the tracking context, run `fn`, restore the prior
context unconditionally, and return `fn`'s result. `fn` is modelled as
commands followed by a result expression. -/
def ignoreRun (cs : List Cmd) (r : DExpr) (st : St) : Option Val × Res :=
  let prev := st.ctx
  match runCmds cs { st with ctx := none } with
  | .ok st1 =>
      let rr := evalDExpr r st1
      (some rr.1, .ok { rr.2 with ctx := prev })
  | .exc st1 => (none, .exc { st1 with ctx := prev })

/-- Outcome of one flush pass. -/
inductive FOut where
  | done : FOut
  | aborted : FOut
  | fuelOut : FOut
deriving DecidableEq, Repr

/-- `flush()`: iterate the queue by index, re-reading the length each step
(so jobs appended mid-flush run in the same pass); after the pass, clear
the queue and reset the flag.  There is no exception handling: a throwing
job aborts the iteration, leaving the queue and the flag as they are.  The
`fuel` bound is a model artifact (the source loop is unbounded); the pair
component records the jobs started, in order. -/
def flushLoop : Nat → Nat → St → St × List Nat × FOut
  | 0, _, st => (st, [], .fuelOut)
  | Nat.succ fuel, i, st =>
      if h : i < st.queue.length then
        let j := st.queue.get ⟨i, h⟩
        match runEffectTop j st with
        | .ok st1 =>
            let r := flushLoop fuel (i + 1) st1
            (r.1, j :: r.2.1, r.2.2)
        | .exc st1 => (st1, [j], .aborted)
      else
        ({ st with queue := [], flushing := false }, [], .done)

/-- Top-level operations a client can perform between microtask turns. -/
inductive Op where
  | newSig : Val → Op
  | newEff : List Cmd → Option Nat → Op
  | compOp : DExpr → Op
  | writeOp : Nat → DExpr → Op
  | disposeOp : Nat → Op
  | scopeOp : List Cmd → Op
  | micro : Op

/-- Execute one top-level operation.  `micro` fires one pending
`queueMicrotask(flush)` callback, if any.  An exception escaping a
construction or a flush propagates to the host and is not handled. -/
def runOp (fuel : Nat) (st : St) : Op → St
  | .newSig v => newSigRun v st
  | .newEff cs ret => newEffRun cs ret st
  | .compOp d => computedOp d st
  | .writeOp s ex =>
      let r := evalDExpr ex st
      writeVal s r.1 r.2
  | .disposeOp e => disposeRun e st
  | .scopeOp cs => (runCmd (.scopeC cs) st).state
  | .micro =>
      if st.pending > 0 then
        (flushLoop fuel 0 { st with pending := st.pending - 1 }).1
      else st

/-- The initial state: no signals, no effects, empty queue, no context. -/
def initSt : St :=
  { sigs := fun _ => ⟨Val.undef, []⟩, nsigs := 0,
    effs := fun _ => ⟨[], none, [], []⟩, neffs := 0,
    ctx := none, queue := [], flushing := false, pending := 0, log := [] }

/-- Run a trace of operations from the initial state. -/
def runTrace (fuel : Nat) (ops : List Op) : St :=
  ops.foldl (runOp fuel) initSt

/-- A trace whose flush succeeds: one signal, one subscribed effect, one
changing write. -/
def okTrace : List Op :=
  [Op.newSig (Val.num 0), Op.newEff [Cmd.readC 0] none,
   Op.writeOp 0 (DExpr.lit (Val.num 1))]

/-- A trace whose flush throws: three effects subscribed to one signal,
the second one's body throwing; a changing write schedules all three. -/
def thrTrace : List Op :=
  [Op.newSig (Val.num 0), Op.newEff [Cmd.readC 0] none,
   Op.newEff [Cmd.readC 0, Cmd.throwC] none, Op.newEff [Cmd.readC 0] none,
   Op.writeOp 0 (DExpr.lit (Val.num 1))]

/-- A trace that disposes an effect whose rerun is already queued, then
fires the pending flush. -/
def dispTrace : List Op :=
  [Op.newSig (Val.num 0), Op.newEff [Cmd.readC 0] none,
   Op.writeOp 0 (DExpr.lit (Val.num 1)), Op.disposeOp 0, Op.micro]

/-! ## Ghost observations derived from the log -/

/-- One step of the "signals read since the most recent run began" fold:
a new run of `e` resets the record, a tracked read for `e` records the
signal (set-like), other events are ignored. -/
def readsStep (e : Nat) (acc : List Nat) (ev : Ev) : List Nat :=
  match ev with
  | .beginEv e2 => if e2 = e then [] else acc
  | .readEv e2 s => if e2 = e then addOnce s acc else acc
  | _ => acc

/-- The signals effect `e` has read (tracked) since its most recent run
began, per the observation log. -/
def readsAfter (e : Nat) (log : List Ev) : List Nat :=
  log.foldl (readsStep e) []

/-- One step of the "disposed since the most recent run began" fold. -/
def dispStep (e : Nat) (acc : Bool) (ev : Ev) : Bool :=
  match ev with
  | .beginEv e2 => if e2 = e then false else acc
  | .disposeEv e2 => if e2 = e then true else acc
  | _ => acc

/-- Whether effect `e` has been disposed since its most recent run began
(or ever, if it never ran), per the observation log. -/
def dispAfter (e : Nat) (log : List Ev) : Bool :=
  log.foldl (dispStep e) false

/-- Events that concern effect `e`'s read/begin/dispose history. -/
def EvTouches (e : Nat) : Ev → Prop
  | .beginEv e2 => e2 = e
  | .readEv e2 _ => e2 = e
  | .disposeEv e2 => e2 = e
  | _ => False

/-- Well-formedness of a log event with respect to the number of allocated
effects and signals. -/
def EvWf (ne ns : Nat) : Ev → Prop
  | .beginEv e => e < ne
  | .readEv e s => e < ne ∧ s < ns
  | .disposeEv e => e < ne
  | .cleanEv _ => True
  | .scopePushEv => True

/-- `a` is an initial segment of `b`. -/
def IsPref (a b : List Nat) : Prop := ∃ t, b = a ++ t

/-! ## The reachable-state invariant

`depsEq` and `subsEq` are the edge-exactness invariant: an effect's
dependency set is exactly the set of signals its most recent run has read
so far, and a signal's subscriber set contains exactly the effects whose
most recent run read it and that have not been disposed since that run
began.  The remaining fields are supporting well-formedness facts. -/
structure Inv (st : St) : Prop where
  logWf : ∀ ev ∈ st.log, EvWf st.neffs st.nsigs ev
  depsEq : ∀ e, e < st.neffs → (st.effs e).deps = readsAfter e st.log
  subsEq : ∀ s, s < st.nsigs → ∀ e,
    e ∈ (st.sigs s).subs ↔
      (e < st.neffs ∧ s ∈ readsAfter e st.log ∧ dispAfter e st.log = false)
  ctxWf : ∀ e, st.ctx = some e → e < st.neffs ∧ dispAfter e st.log = false
  queueWf : ∀ j ∈ st.queue, j < st.neffs
  queueNd : st.queue.Nodup
  subsNd : ∀ s, s < st.nsigs → (st.sigs s).subs.Nodup
  sigsHi : ∀ s, st.nsigs ≤ s → st.sigs s = ⟨Val.undef, []⟩
  effsHi : ∀ e, st.neffs ≤ e → st.effs e = ⟨[], none, [], []⟩

/-- What a run-internal step (commands executed inside effect bodies) can
do to the state: it preserves the invariant, restores the tracking
context, only allocates (never frees), only appends to the queue, keeps
the flushing flag and pending count if a flush is in progress, and only
appends tracked-read events and begin events of newly created effects to
the log — in particular it never touches the read/begin/dispose history of
an already-existing effect that is not the active context. -/
structure Steps (st st' : St) : Prop where
  inv : Inv st'
  ctxEq : st'.ctx = st.ctx
  neffsLe : st.neffs ≤ st'.neffs
  nsigsLe : st.nsigs ≤ st'.nsigs
  queuePref : IsPref st.queue st'.queue
  flushMono : st.flushing = true → st'.flushing = true ∧ st'.pending = st.pending
  cleanupsEq : ∀ e, e < st.neffs → (st'.effs e).cleanups = (st.effs e).cleanups
  logExt : ∃ ext, st'.log = st.log ++ ext ∧
    (∀ ev ∈ ext, (∃ e s, ev = Ev.readEv e s) ∨ (∃ e2, ev = Ev.beginEv e2 ∧ st.neffs ≤ e2)) ∧
    (∀ e, e < st.neffs → st.ctx ≠ some e → ∀ ev ∈ ext, ¬ EvTouches e ev)

/-- What one invocation of an effect's `run` procedure does, seen from the
caller: invariant preserved, context restored, allocation monotone, queue
only appended, flags kept during a flush, the cleanup list afterwards
holding exactly what this run's body returned (on normal completion), and
the log growing by exactly the pending cleanups (in order), then the
body's begin marker, then only tracked-read and nested-construction
events. -/
structure EffRun (st : St) (e : Nat) (st2 : St) : Prop where
  inv : Inv st2
  ctxEq : st2.ctx = st.ctx
  neffsLe : st.neffs ≤ st2.neffs
  nsigsLe : st.nsigs ≤ st2.nsigs
  queuePref : IsPref st.queue st2.queue
  flushMono : st.flushing = true → st2.flushing = true ∧ st2.pending = st.pending
  cleanupsOk : ∀ st4 : St, runEffectTop e st = Res.ok st4 →
    (st4.effs e).cleanups = (st.effs e).bodyRet.toList
  logExt : ∃ rest, st2.log = st.log ++ (st.effs e).cleanups.map Ev.cleanEv
      ++ Ev.beginEv e :: rest ∧
    ∀ ev ∈ rest, (∃ a b, ev = Ev.readEv a b) ∨ ∃ a, ev = Ev.beginEv a ∧ st.neffs ≤ a

/-- What any top-level operation preserves: the invariant, the empty
tracking context, and a log that only grows — never with the `scope`
push event. -/
structure TStep (st st2 : St) : Prop where
  inv : Inv st2
  ctxEq : st2.ctx = st.ctx
  logExt : ∃ ext, st2.log = st.log ++ ext ∧ Ev.scopePushEv ∉ ext

/-- Only writes and microtask firings (the operations named by the
starvation consequence of a throwing flush). -/
def OnlyWM (ops : List Op) : Prop :=
  ∀ op ∈ ops, (∃ s ex, op = Op.writeOp s ex) ∨ op = Op.micro

/-- The values held by the signal arena. -/
def valsOf (st : St) : Nat → Val := fun s => (st.sigs s).value


/-! ## Basic lemmas -/

theorem mem_addOnce {x y : Nat} {l : List Nat} : x ∈ addOnce y l ↔ x = y ∨ x ∈ l := by
  unfold addOnce
  split
  · constructor
    · exact fun h => Or.inr h
    · rintro (rfl | h) <;> assumption
  · simp [or_comm]

theorem addOnce_nodup {y : Nat} {l : List Nat} (h : l.Nodup) : (addOnce y l).Nodup := by
  unfold addOnce
  split
  · exact h
  · next hy =>
      rw [List.nodup_append]
      refine ⟨h, List.nodup_singleton y, fun a ha hay => ?_⟩
      simp only [List.mem_singleton] at hay
      exact hy (hay ▸ ha)

theorem readsAfter_append (e : Nat) (log ext : List Ev) :
    readsAfter e (log ++ ext) = ext.foldl (readsStep e) (readsAfter e log) := by
  unfold readsAfter
  exact List.foldl_append _ _ _ _

theorem dispAfter_append (e : Nat) (log ext : List Ev) :
    dispAfter e (log ++ ext) = ext.foldl (dispStep e) (dispAfter e log) := by
  unfold dispAfter
  exact List.foldl_append _ _ _ _

theorem readsFold_untouched {e : Nat} {ext : List Ev} (acc : List Nat)
    (h : ∀ ev ∈ ext, ¬ EvTouches e ev) : ext.foldl (readsStep e) acc = acc := by
  induction ext generalizing acc with
  | nil => rfl
  | cons ev ext ih =>
      have hev := h ev (List.mem_cons_self _ _)
      have hrest : ∀ ev2 ∈ ext, ¬ EvTouches e ev2 := fun ev2 h2 => h ev2 (List.mem_cons_of_mem _ h2)
      have hstep : readsStep e acc ev = acc := by
        cases ev <;> simp [readsStep, EvTouches] at hev ⊢ <;> simp [hev]
      simp only [List.foldl_cons, hstep]
      exact ih acc hrest

theorem dispFold_untouched {e : Nat} {ext : List Ev} (acc : Bool)
    (h : ∀ ev ∈ ext, ¬ EvTouches e ev) : ext.foldl (dispStep e) acc = acc := by
  induction ext generalizing acc with
  | nil => rfl
  | cons ev ext ih =>
      have hev := h ev (List.mem_cons_self _ _)
      have hrest : ∀ ev2 ∈ ext, ¬ EvTouches e ev2 := fun ev2 h2 => h ev2 (List.mem_cons_of_mem _ h2)
      have hstep : dispStep e acc ev = acc := by
        cases ev <;> simp [dispStep, EvTouches] at hev ⊢ <;> simp [hev]
      simp only [List.foldl_cons, hstep]
      exact ih acc hrest

theorem readsAfter_untouched {e : Nat} {log ext : List Ev}
    (h : ∀ ev ∈ ext, ¬ EvTouches e ev) :
    readsAfter e (log ++ ext) = readsAfter e log := by
  rw [readsAfter_append]
  exact readsFold_untouched _ h

theorem dispAfter_untouched {e : Nat} {log ext : List Ev}
    (h : ∀ ev ∈ ext, ¬ EvTouches e ev) :
    dispAfter e (log ++ ext) = dispAfter e log := by
  rw [dispAfter_append]
  exact dispFold_untouched _ h

theorem readsFold_nodup {e : Nat} {ext : List Ev} (acc : List Nat) (h : acc.Nodup) :
    (ext.foldl (readsStep e) acc).Nodup := by
  induction ext generalizing acc with
  | nil => exact h
  | cons ev ext ih =>
      refine ih _ ?_
      cases ev with
      | beginEv e2 =>
          by_cases h2 : e2 = e <;> simp [readsStep, h2, h]
      | readEv e2 s =>
          by_cases h2 : e2 = e <;> simp [readsStep, h2, h, addOnce_nodup h]
      | cleanEv t => exact h
      | disposeEv e2 => exact h
      | scopePushEv => exact h

theorem readsAfter_nodup (e : Nat) (log : List Ev) : (readsAfter e log).Nodup :=
  readsFold_nodup [] List.nodup_nil

theorem EvWf_mono {ne ns ne2 ns2 : Nat} {ev : Ev} (h : EvWf ne ns ev)
    (h1 : ne ≤ ne2) (h2 : ns ≤ ns2) : EvWf ne2 ns2 ev := by
  cases ev <;> simp [EvWf] at h ⊢ <;> omega

theorem EvWf_not_touches {ne ns e : Nat} {ev : Ev} (h : EvWf ne ns ev)
    (he : ne ≤ e) : ¬ EvTouches e ev := by
  cases ev <;> simp [EvWf, EvTouches] at h ⊢ <;> omega

theorem readsAfter_hi {st : St} (hinv : Inv st) {e : Nat} (he : st.neffs ≤ e) :
    readsAfter e st.log = [] :=
  readsFold_untouched [] (fun ev hev => EvWf_not_touches (hinv.logWf ev hev) he)

theorem dispAfter_hi {st : St} (hinv : Inv st) {e : Nat} (he : st.neffs ≤ e) :
    dispAfter e st.log = false :=
  dispFold_untouched false (fun ev hev => EvWf_not_touches (hinv.logWf ev hev) he)

theorem IsPref.rfl2 {l : List Nat} : IsPref l l := ⟨[], by simp⟩

theorem IsPref.trans2 {a b c : List Nat} (h1 : IsPref a b) (h2 : IsPref b c) : IsPref a c := by
  obtain ⟨t1, rfl⟩ := h1
  obtain ⟨t2, rfl⟩ := h2
  exact ⟨t1 ++ t2, by simp⟩

theorem IsPref.append_t {l t : List Nat} : IsPref l (l ++ t) := ⟨t, rfl⟩

theorem IsPref.length_le {a b : List Nat} (h : IsPref a b) : a.length ≤ b.length := by
  obtain ⟨t, rfl⟩ := h
  simp

theorem IsPref.mem {a b : List Nat} (h : IsPref a b) {x : Nat} (hx : x ∈ a) : x ∈ b := by
  obtain ⟨t, rfl⟩ := h
  exact List.mem_append_left _ hx

theorem IsPref.get_stable {a b : List Nat} (h : IsPref a b) {i : Nat} (hi : i < a.length)
    (hib : i < b.length) : b.get ⟨i, hib⟩ = a.get ⟨i, hi⟩ := by
  obtain ⟨t, rfl⟩ := h
  simp [List.get_eq_getElem, List.getElem_append_left, hi]

theorem Steps.reflS {st : St} (h : Inv st) : Steps st st := by
  refine ⟨h, rfl, le_refl _, le_refl _, IsPref.rfl2, fun hf => ⟨hf, rfl⟩,
    fun _ _ => rfl, ⟨[], by simp⟩⟩

theorem Steps.transS {a b c : St} (h1 : Steps a b) (h2 : Steps b c) : Steps a c := by
  refine ⟨h2.inv, h2.ctxEq.trans h1.ctxEq, le_trans h1.neffsLe h2.neffsLe,
    le_trans h1.nsigsLe h2.nsigsLe, h1.queuePref.trans2 h2.queuePref,
    fun hf => by
      have r1 := h1.flushMono hf
      have r2 := h2.flushMono r1.1
      exact ⟨r2.1, r2.2.trans r1.2⟩,
    fun e he => (h2.cleanupsEq e (lt_of_lt_of_le he h1.neffsLe)).trans (h1.cleanupsEq e he), ?_⟩
  obtain ⟨e1, he1, hk1, ht1⟩ := h1.logExt
  obtain ⟨e2, he2, hk2, ht2⟩ := h2.logExt
  refine ⟨e1 ++ e2, by simp [he2, he1], ?_, ?_⟩
  · intro ev hev
    rcases List.mem_append.mp hev with h | h
    · exact hk1 ev h
    · rcases hk2 ev h with hr | ⟨x, hx, hb⟩
      · exact Or.inl hr
      · exact Or.inr ⟨x, hx, le_trans h1.neffsLe hb⟩
  · intro e he hctx ev hev
    rcases List.mem_append.mp hev with h | h
    · exact ht1 e he hctx ev h
    · exact ht2 e (lt_of_lt_of_le he h1.neffsLe) (by rw [h1.ctxEq]; exact hctx) ev h

theorem readsAfter_snoc_read_self (e s : Nat) (log : List Ev) :
    readsAfter e (log ++ [Ev.readEv e s]) = addOnce s (readsAfter e log) := by
  rw [readsAfter_append]
  simp [readsStep]

theorem readsAfter_snoc_begin_self (e : Nat) (log : List Ev) :
    readsAfter e (log ++ [Ev.beginEv e]) = [] := by
  rw [readsAfter_append]
  simp [readsStep]

theorem readsAfter_snoc_other {e : Nat} {ev : Ev} (log : List Ev) (h : ¬ EvTouches e ev) :
    readsAfter e (log ++ [ev]) = readsAfter e log :=
  readsAfter_untouched (by simpa using h)

theorem dispAfter_snoc_begin_self (e : Nat) (log : List Ev) :
    dispAfter e (log ++ [Ev.beginEv e]) = false := by
  rw [dispAfter_append]
  simp [dispStep]

theorem dispAfter_snoc_dispose_self (e : Nat) (log : List Ev) :
    dispAfter e (log ++ [Ev.disposeEv e]) = true := by
  rw [dispAfter_append]
  simp [dispStep]

theorem dispAfter_snoc_other {e : Nat} {ev : Ev} (log : List Ev) (h : ¬ EvTouches e ev) :
    dispAfter e (log ++ [ev]) = dispAfter e log :=
  dispAfter_untouched (by simpa using h)

theorem dispAfter_snoc_read (e a b : Nat) (log : List Ev) :
    dispAfter e (log ++ [Ev.readEv a b]) = dispAfter e log := by
  rw [dispAfter_append]
  simp [dispStep]

theorem readsAfter_snoc_clean (e t : Nat) (log : List Ev) :
    readsAfter e (log ++ [Ev.cleanEv t]) = readsAfter e log := by
  rw [readsAfter_append]
  simp [readsStep]

theorem dispAfter_snoc_clean (e t : Nat) (log : List Ev) :
    dispAfter e (log ++ [Ev.cleanEv t]) = dispAfter e log := by
  rw [dispAfter_append]
  simp [dispStep]

/-! ## Step lemmas for the primitive operations -/

theorem not_touches_read {e2 e s : Nat} (h : e ≠ e2) : ¬ EvTouches e2 (Ev.readEv e s) := by
  simp only [EvTouches]
  exact h

theorem not_touches_begin {e2 e : Nat} (h : e ≠ e2) : ¬ EvTouches e2 (Ev.beginEv e) := by
  simp only [EvTouches]
  exact h

theorem not_touches_dispose {e2 e : Nat} (h : e ≠ e2) : ¬ EvTouches e2 (Ev.disposeEv e) := by
  simp only [EvTouches]
  exact h

theorem not_touches_clean {e2 t : Nat} : ¬ EvTouches e2 (Ev.cleanEv t) := by
  simp [EvTouches]

/-- The getter preserves the invariant and is a run-internal step. -/
theorem readSig_steps (s : Nat) (st : St) (hinv : Inv st) : Steps st (readSig s st).2 := by
  unfold readSig
  by_cases hs : s < st.nsigs
  · simp only [hs, if_true]
    cases hctx : st.ctx with
    | none => exact Steps.reflS hinv
    | some e =>
        obtain ⟨he, hde⟩ := hinv.ctxWf e hctx
        simp only
        have hinv2 : Inv
            { st with
              sigs := Function.update st.sigs s
                ({ st.sigs s with subs := addOnce e (st.sigs s).subs }),
              effs := Function.update st.effs e
                ({ st.effs e with deps := addOnce s (st.effs e).deps }),
              ctx := some e,
              log := st.log ++ [Ev.readEv e s] } := by
          refine ⟨?_, ?_, ?_, ?_, ?_, ?_, ?_, ?_, ?_⟩
          · intro ev hev
            simp only [List.mem_append, List.mem_singleton] at hev
            rcases hev with h | rfl
            · exact hinv.logWf ev h
            · exact ⟨he, hs⟩
          · intro e2 he2
            simp only at he2 ⊢
            by_cases heq : e2 = e
            · subst heq
              rw [Function.update_same, readsAfter_snoc_read_self]
              show addOnce s (st.effs e2).deps = _
              rw [hinv.depsEq e2 he2]
            · rw [Function.update_noteq heq,
                readsAfter_snoc_other _ (not_touches_read (fun h2 => heq h2.symm))]
              exact hinv.depsEq e2 he2
          · intro s2 hs2 e2
            simp only at hs2 ⊢
            rw [dispAfter_snoc_read]
            by_cases hseq : s2 = s
            · subst hseq
              rw [Function.update_same]
              show e2 ∈ addOnce e (st.sigs s2).subs ↔ _
              by_cases heq : e2 = e
              · subst heq
                rw [readsAfter_snoc_read_self]
                constructor
                · intro _
                  exact ⟨he, mem_addOnce.mpr (Or.inl rfl), hde⟩
                · intro _
                  exact mem_addOnce.mpr (Or.inl rfl)
              · rw [readsAfter_snoc_other _ (not_touches_read (fun h2 => heq h2.symm))]
                rw [mem_addOnce]
                simp only [heq, false_or]
                exact hinv.subsEq s2 hs2 e2
            · rw [Function.update_noteq hseq]
              by_cases heq : e2 = e
              · subst heq
                rw [readsAfter_snoc_read_self, mem_addOnce]
                simp only [hseq, false_or]
                exact hinv.subsEq s2 hs2 e2
              · rw [readsAfter_snoc_other _ (not_touches_read (fun h2 => heq h2.symm))]
                exact hinv.subsEq s2 hs2 e2
          · intro e2 hctx2
            simp only at hctx2 ⊢
            have heq : e = e2 := Option.some.inj hctx2
            subst heq
            rw [dispAfter_snoc_read]
            exact ⟨he, hde⟩
          · intro j hj
            exact hinv.queueWf j hj
          · exact hinv.queueNd
          · intro s2 hs2
            simp only at hs2 ⊢
            by_cases hseq : s2 = s
            · subst hseq
              rw [Function.update_same]
              exact addOnce_nodup (hinv.subsNd s2 hs2)
            · rw [Function.update_noteq hseq]
              exact hinv.subsNd s2 hs2
          · intro s2 hs2
            simp only at hs2 ⊢
            have hseq : s2 ≠ s := by omega
            rw [Function.update_noteq hseq]
            exact hinv.sigsHi s2 hs2
          · intro e2 he2
            simp only at he2 ⊢
            have heq : e2 ≠ e := by omega
            rw [Function.update_noteq heq]
            exact hinv.effsHi e2 he2
        refine ⟨hinv2, hctx.symm, le_refl _, le_refl _, IsPref.rfl2, fun hf => ⟨hf, rfl⟩,
          ?_, ⟨[Ev.readEv e s], rfl, ?_, ?_⟩⟩
        · intro e2 _
          simp only
          by_cases heq : e2 = e
          · subst heq
            rw [Function.update_same]
          · rw [Function.update_noteq heq]
        · intro ev hev
          simp only [List.mem_singleton] at hev
          subst hev
          exact Or.inl ⟨e, s, rfl⟩
        · intro e2 _ hctx2 ev hev
          simp only [List.mem_singleton] at hev
          subst hev
          exact not_touches_read (fun hcontra => hctx2 (hcontra ▸ hctx))
  · simp only [hs, if_false]
    exact Steps.reflS hinv

theorem nodup_append_singleton {l : List Nat} {x : Nat} (h : l.Nodup) (hx : x ∉ l) :
    (l ++ [x]).Nodup := by
  rw [List.nodup_append]
  refine ⟨h, List.nodup_singleton x, fun a ha hay => ?_⟩
  simp only [List.mem_singleton] at hay
  exact hx (hay ▸ ha)

/-- `schedule` preserves the invariant: dedup keeps the queue
duplicate-free, and it never clears the flag once set. -/
theorem schedule_steps (j : Nat) (st : St) (hinv : Inv st) (hj : j < st.neffs) :
    Steps st (schedule j st) := by
  unfold schedule
  by_cases hq : j ∈ st.queue
  · rw [if_pos hq]
    by_cases hf : st.flushing = true
    · rw [if_pos hf]
      exact Steps.reflS hinv
    · rw [if_neg hf]
      refine ⟨⟨hinv.logWf, hinv.depsEq, hinv.subsEq, hinv.ctxWf, hinv.queueWf,
        hinv.queueNd, hinv.subsNd, hinv.sigsHi, hinv.effsHi⟩, rfl, le_refl _, le_refl _,
        IsPref.rfl2, fun hcontra => absurd hcontra hf, fun _ _ => rfl,
        ⟨[], by simp, by simp, by simp⟩⟩
  · rw [if_neg hq]
    have hinv1 : Inv { st with queue := st.queue ++ [j] } := by
      refine ⟨hinv.logWf, hinv.depsEq, hinv.subsEq, hinv.ctxWf, ?_, ?_,
        hinv.subsNd, hinv.sigsHi, hinv.effsHi⟩
      · intro j2 hj2
        simp only [List.mem_append, List.mem_singleton] at hj2
        rcases hj2 with h | rfl
        · exact hinv.queueWf j2 h
        · exact hj
      · exact nodup_append_singleton hinv.queueNd hq
    by_cases hf : st.flushing = true
    · rw [if_pos hf]
      exact ⟨hinv1, rfl, le_refl _, le_refl _, IsPref.append_t,
        fun hft => ⟨hf, rfl⟩, fun _ _ => rfl, ⟨[], by simp, by simp, by simp⟩⟩
    · rw [if_neg hf]
      exact ⟨⟨hinv1.logWf, hinv1.depsEq, hinv1.subsEq, hinv1.ctxWf, hinv1.queueWf,
        hinv1.queueNd, hinv1.subsNd, hinv1.sigsHi, hinv1.effsHi⟩, rfl, le_refl _, le_refl _,
        IsPref.append_t, fun hcontra => absurd hcontra hf, fun _ _ => rfl,
        ⟨[], by simp, by simp, by simp⟩⟩

/-- Notifying a list of subscribers is a sequence of `schedule` calls. -/
theorem notifySubs_steps (subs : List Nat) (st : St) (hinv : Inv st)
    (hw : ∀ j ∈ subs, j < st.neffs) : Steps st (notifySubs subs st) := by
  induction subs generalizing st with
  | nil => exact Steps.reflS hinv
  | cons j rest ih =>
      have h1 : Steps st (schedule j st) :=
        schedule_steps j st hinv (hw j (List.mem_cons_self _ _))
      have h2 : Steps (schedule j st) (notifySubs rest (schedule j st)) := by
        refine ih (schedule j st) h1.inv (fun j2 hj2 => ?_)
        exact lt_of_lt_of_le (hw j2 (List.mem_cons_of_mem _ hj2)) h1.neffsLe
      exact h1.transS h2

/-- The setter preserves the invariant: it changes only the stored value,
the scheduler queue and flag. -/
theorem writeVal_steps (s : Nat) (arg : Val) (st : St) (hinv : Inv st) :
    Steps st (writeVal s arg st) := by
  unfold writeVal
  by_cases hs : s < st.nsigs
  · simp only [hs, if_true]
    by_cases heq : candidateVal (st.sigs s).value arg = (st.sigs s).value
    · simp only [heq, if_true]
      exact Steps.reflS hinv
    · simp only [heq, if_false]
      have hinv1 : Inv
          { st with sigs := Function.update st.sigs s ({ st.sigs s with value := candidateVal (st.sigs s).value arg }) } := by
        refine ⟨hinv.logWf, hinv.depsEq, ?_, hinv.ctxWf, hinv.queueWf, hinv.queueNd,
          ?_, ?_, hinv.effsHi⟩
        · intro s2 hs2 e2
          simp only at hs2 ⊢
          by_cases hseq : s2 = s
          · subst hseq
            rw [Function.update_same]
            exact hinv.subsEq s2 hs2 e2
          · rw [Function.update_noteq hseq]
            exact hinv.subsEq s2 hs2 e2
        · intro s2 hs2
          simp only at hs2 ⊢
          by_cases hseq : s2 = s
          · subst hseq
            rw [Function.update_same]
            exact hinv.subsNd s2 hs2
          · rw [Function.update_noteq hseq]
            exact hinv.subsNd s2 hs2
        · intro s2 hs2
          simp only at hs2 ⊢
          have hseq : s2 ≠ s := by omega
          rw [Function.update_noteq hseq]
          exact hinv.sigsHi s2 hs2
      have h1 : Steps st
          { st with sigs := Function.update st.sigs s ({ st.sigs s with value := candidateVal (st.sigs s).value arg }) } :=
        ⟨hinv1, rfl, le_refl _, le_refl _, IsPref.rfl2, fun hf => ⟨hf, rfl⟩,
          fun _ _ => rfl, ⟨[], by simp, by simp, by simp⟩⟩
      refine h1.transS (notifySubs_steps _ _ hinv1 ?_)
      intro j hj
      simp only at hj
      exact ((hinv.subsEq s hs j).mp hj).1
  · simp only [hs, if_false]
    exact Steps.reflS hinv

theorem readsFold_subset {e s : Nat} {l : List Ev} :
    ∀ acc : List Nat, s ∈ l.foldl (readsStep e) acc → s ∈ acc ∨ Ev.readEv e s ∈ l := by
  induction l with
  | nil => exact fun acc h => Or.inl h
  | cons ev l ih =>
      intro acc h
      rcases ih (readsStep e acc ev) h with h2 | h2
      · cases ev with
        | beginEv e2 =>
            by_cases heq : e2 = e
            · simp [readsStep, heq] at h2
            · simp only [readsStep, if_neg heq] at h2
              exact Or.inl h2
        | readEv e2 s2 =>
            by_cases heq : e2 = e
            · simp only [readsStep, if_pos heq] at h2
              rcases mem_addOnce.mp h2 with rfl | h3
              · exact Or.inr (by simp [heq])
              · exact Or.inl h3
            · simp only [readsStep, if_neg heq] at h2
              exact Or.inl h2
        | cleanEv t => exact Or.inl h2
        | disposeEv e2 => exact Or.inl h2
        | scopePushEv => exact Or.inl h2
      · exact Or.inr (List.mem_cons_of_mem _ h2)

theorem readsAfter_subset {e s : Nat} {log : List Ev} (h : s ∈ readsAfter e log) :
    Ev.readEv e s ∈ log := by
  rcases readsFold_subset [] h with h2 | h2
  · cases h2
  · exact h2

/-- Members of a dependency set are allocated signals (via the log). -/
theorem deps_lt_nsigs {st : St} (hinv : Inv st) {e : Nat} (he : e < st.neffs)
    {s : Nat} (hs : s ∈ (st.effs e).deps) : s < st.nsigs := by
  rw [hinv.depsEq e he] at hs
  exact ((hinv.logWf _ (readsAfter_subset hs)) : _ ∧ _).2

theorem unsubscribeAll_cons (e d : Nat) (ds : List Nat) (sigs : Nat → SigData) :
    unsubscribeAll e (d :: ds) sigs
      = unsubscribeAll e ds
          (Function.update sigs d ({ sigs d with subs := (sigs d).subs.erase e })) := rfl

theorem unsubscribeAll_not_mem {e : Nat} {deps : List Nat} {sigs : Nat → SigData} {s : Nat}
    (h : s ∉ deps) : unsubscribeAll e deps sigs s = sigs s := by
  induction deps generalizing sigs with
  | nil => rfl
  | cons d ds ih =>
      have hd : s ≠ d := fun h2 => h (h2 ▸ List.mem_cons_self _ _)
      have hds : s ∉ ds := fun h2 => h (List.mem_cons_of_mem _ h2)
      rw [unsubscribeAll_cons, ih hds, Function.update_noteq hd]

theorem unsubscribeAll_mem {e : Nat} {deps : List Nat} {sigs : Nat → SigData} {s : Nat}
    (hnd : deps.Nodup) (h : s ∈ deps) :
    unsubscribeAll e deps sigs s = { sigs s with subs := (sigs s).subs.erase e } := by
  induction deps generalizing sigs with
  | nil => cases h
  | cons d ds ih =>
      rcases List.mem_cons.mp h with rfl | hds
      · have hnotin : s ∉ ds := (List.nodup_cons.mp hnd).1
        rw [unsubscribeAll_cons, unsubscribeAll_not_mem hnotin, Function.update_same]
      · have hd : s ≠ d := by
          rintro rfl
          exact (List.nodup_cons.mp hnd).1 hds
        rw [unsubscribeAll_cons, ih (List.nodup_cons.mp hnd).2 hds, Function.update_noteq hd]

theorem unsubscribeAll_value (e : Nat) (deps : List Nat) (sigs : Nat → SigData) (s : Nat) :
    (unsubscribeAll e deps sigs s).value = (sigs s).value := by
  induction deps generalizing sigs with
  | nil => rfl
  | cons d ds ih =>
      rw [unsubscribeAll_cons, ih]
      by_cases hd : s = d
      · subst hd
        rw [Function.update_same]
      · rw [Function.update_noteq hd]

theorem no_touches_cleanups {x : Nat} (toks : List Nat) :
    ∀ ev ∈ toks.map Ev.cleanEv, ¬ EvTouches x ev := by
  intro ev hev
  rcases List.mem_map.mp hev with ⟨t, _, rfl⟩
  exact not_touches_clean

theorem readsAfter_pre_self (e : Nat) (log : List Ev) (toks : List Nat) :
    readsAfter e (log ++ toks.map Ev.cleanEv ++ [Ev.beginEv e]) = [] := by
  rw [readsAfter_snoc_begin_self]

theorem readsAfter_pre_other {e2 e : Nat} (h : e ≠ e2) (log : List Ev) (toks : List Nat) :
    readsAfter e2 (log ++ toks.map Ev.cleanEv ++ [Ev.beginEv e]) = readsAfter e2 log := by
  rw [readsAfter_snoc_other _ (not_touches_begin h), readsAfter_untouched (no_touches_cleanups toks)]

theorem dispAfter_pre_self (e : Nat) (log : List Ev) (toks : List Nat) :
    dispAfter e (log ++ toks.map Ev.cleanEv ++ [Ev.beginEv e]) = false := by
  rw [dispAfter_snoc_begin_self]

theorem dispAfter_pre_other {e2 e : Nat} (h : e ≠ e2) (log : List Ev) (toks : List Nat) :
    dispAfter e2 (log ++ toks.map Ev.cleanEv ++ [Ev.beginEv e]) = dispAfter e2 log := by
  rw [dispAfter_snoc_other _ (not_touches_begin h), dispAfter_untouched (no_touches_cleanups toks)]

/-- The first half of a run preserves the invariant: after it, the
effect's dependency set is empty and matches its freshly-reset read
history, and the effect is unsubscribed everywhere. -/
theorem preRun_inv (e : Nat) (st : St) (hinv : Inv st) (he : e < st.neffs) :
    Inv (preRun e st) := by
  have hdeps : (st.effs e).deps = readsAfter e st.log := hinv.depsEq e he
  have hdnd : (st.effs e).deps.Nodup := hdeps ▸ readsAfter_nodup e st.log
  refine ⟨?_, ?_, ?_, ?_, ?_, hinv.queueNd, ?_, ?_, ?_⟩
  · intro ev hev
    simp only [preRun, List.append_assoc, List.mem_append, List.mem_singleton] at hev
    rcases hev with h | h | rfl
    · exact hinv.logWf ev h
    · rcases List.mem_map.mp h with ⟨t, _, rfl⟩
      trivial
    · exact he
  · intro e2 he2
    simp only [preRun] at he2 ⊢
    by_cases heq : e2 = e
    · subst heq
      rw [Function.update_same, readsAfter_pre_self]
    · rw [Function.update_noteq heq, readsAfter_pre_other (fun h2 => heq h2.symm)]
      exact hinv.depsEq e2 he2
  · intro s2 hs2 e2
    simp only [preRun] at hs2 ⊢
    by_cases hmem : s2 ∈ (st.effs e).deps
    · rw [unsubscribeAll_mem hdnd hmem]
      by_cases heq : e2 = e
      · subst heq
        rw [readsAfter_pre_self]
        simp only [List.not_mem_nil, false_and, and_false, iff_false]
        exact fun hcontra => (hinv.subsNd s2 hs2).not_mem_erase hcontra
      · rw [readsAfter_pre_other (fun h2 => heq h2.symm),
          dispAfter_pre_other (fun h2 => heq h2.symm),
          List.mem_erase_of_ne heq]
        exact hinv.subsEq s2 hs2 e2
    · rw [unsubscribeAll_not_mem hmem]
      by_cases heq : e2 = e
      · subst heq
        rw [readsAfter_pre_self]
        simp only [List.not_mem_nil, false_and, and_false, iff_false]
        intro hcontra
        exact hmem (hdeps ▸ ((hinv.subsEq s2 hs2 e2).mp hcontra).2.1)
      · rw [readsAfter_pre_other (fun h2 => heq h2.symm),
          dispAfter_pre_other (fun h2 => heq h2.symm)]
        exact hinv.subsEq s2 hs2 e2
  · intro e2 heq2
    simp only [preRun] at heq2 ⊢
    have heq : e = e2 := Option.some.inj heq2
    subst heq
    rw [dispAfter_pre_self]
    exact ⟨he, rfl⟩
  · intro j hj
    exact hinv.queueWf j hj
  · intro s2 hs2
    simp only [preRun] at hs2 ⊢
    by_cases hmem : s2 ∈ (st.effs e).deps
    · rw [unsubscribeAll_mem hdnd hmem]
      exact (hinv.subsNd s2 hs2).erase e
    · rw [unsubscribeAll_not_mem hmem]
      exact hinv.subsNd s2 hs2
  · intro s2 hs2
    simp only [preRun] at hs2 ⊢
    have hmem : s2 ∉ (st.effs e).deps := fun h2 => by
      have := deps_lt_nsigs hinv he h2
      omega
    rw [unsubscribeAll_not_mem hmem]
    exact hinv.sigsHi s2 hs2
  · intro e2 he2
    simp only [preRun] at he2 ⊢
    have heq : e2 ≠ e := by omega
    rw [Function.update_noteq heq]
    exact hinv.effsHi e2 he2

/-- Registering the body's returned cleanup preserves the invariant. -/
theorem regRet_inv (e : Nat) (ret : Option Nat) (st : St) (hinv : Inv st)
    (he : e < st.neffs) : Inv (regRet e ret st) := by
  cases ret with
  | none => exact hinv
  | some tok =>
      refine ⟨hinv.logWf, ?_, hinv.subsEq, hinv.ctxWf, hinv.queueWf, hinv.queueNd,
        hinv.subsNd, hinv.sigsHi, ?_⟩
      · intro e2 he2
        simp only [regRet, addCleanup] at he2 ⊢
        by_cases heq : e2 = e
        · subst heq
          rw [Function.update_same]
          exact hinv.depsEq e2 he2
        · rw [Function.update_noteq heq]
          exact hinv.depsEq e2 he2
      · intro e2 he2
        simp only [regRet, addCleanup] at he2 ⊢
        have heq : e2 ≠ e := by omega
        rw [Function.update_noteq heq]
        exact hinv.effsHi e2 he2

/-- Body-expression evaluation is a sequence of getter calls. -/
theorem evalDExpr_steps (d : DExpr) (st : St) (hinv : Inv st) :
    Steps st (evalDExpr d st).2 := by
  induction d generalizing st with
  | lit v => exact Steps.reflS hinv
  | readS s => exact readSig_steps s st hinv
  | add a b iha ihb =>
      have h1 := iha st hinv
      have h2 := ihb (evalDExpr a st).2 h1.inv
      exact h1.transS h2

theorem inv_ctx_none {st : St} (hinv : Inv st) : Inv { st with ctx := none } :=
  ⟨hinv.logWf, hinv.depsEq, hinv.subsEq, fun _ h => Option.noConfusion h,
    hinv.queueWf, hinv.queueNd, hinv.subsNd, hinv.sigsHi, hinv.effsHi⟩

/-- Restoring the saved context after running a region with a cleared
context (the shape of `ignore` and `scope`). -/
theorem restore_steps {st st1 : St} (hinv : Inv st)
    (hb : Steps { st with ctx := none } st1) :
    Steps st { st1 with ctx := st.ctx } := by
  obtain ⟨ext, hlog, hkinds, htouch⟩ := hb.logExt
  have huntouch : ∀ e, e < st.neffs → ∀ ev ∈ ext, ¬ EvTouches e ev := by
    intro e he ev hev
    exact htouch e he (fun h => Option.noConfusion h) ev hev
  refine ⟨?_, rfl, hb.neffsLe, hb.nsigsLe, hb.queuePref, hb.flushMono,
    fun e he => hb.cleanupsEq e he, ?_⟩
  · refine ⟨hb.inv.logWf, hb.inv.depsEq, hb.inv.subsEq, ?_, hb.inv.queueWf,
      hb.inv.queueNd, hb.inv.subsNd, hb.inv.sigsHi, hb.inv.effsHi⟩
    intro e heq
    simp only at heq
    obtain ⟨he, hd⟩ := hinv.ctxWf e heq
    refine ⟨lt_of_lt_of_le he hb.neffsLe, ?_⟩
    show dispAfter e st1.log = false
    rw [hlog]
    show dispAfter e ((({ st with ctx := none } : St).log) ++ ext) = false
    rw [dispAfter_untouched (huntouch e he)]
    exact hd
  · exact ⟨ext, hlog, hkinds, fun e he _ ev hev => huntouch e he ev hev⟩

/-- Allocating a fresh effect record preserves the invariant. -/
theorem alloc_inv (cs : List Cmd) (ret : Option Nat) (st : St) (hinv : Inv st) :
    Inv { st with
      effs := Function.update st.effs st.neffs ⟨cs, ret, [], []⟩,
      neffs := st.neffs + 1 } := by
  have hfreshR : readsAfter st.neffs st.log = [] := readsAfter_hi hinv (le_refl _)
  have hfreshD : dispAfter st.neffs st.log = false := dispAfter_hi hinv (le_refl _)
  refine ⟨?_, ?_, ?_, ?_, ?_, hinv.queueNd, hinv.subsNd, hinv.sigsHi, ?_⟩
  · intro ev hev
    exact EvWf_mono (hinv.logWf ev hev) (Nat.le_succ _) (le_refl _)
  · intro e2 he2
    have he2n : e2 < st.neffs + 1 := he2
    simp only
    by_cases heq : e2 = st.neffs
    · subst heq
      rw [Function.update_same, hfreshR]
    · rw [Function.update_noteq heq]
      exact hinv.depsEq e2 (by omega)
  · intro s2 hs2 e2
    have hs2n : s2 < st.nsigs := hs2
    simp only
    by_cases heq : e2 = st.neffs
    · subst heq
      rw [hfreshR]
      simp only [List.not_mem_nil, false_and, and_false, iff_false]
      intro hcontra
      have := ((hinv.subsEq s2 hs2n st.neffs).mp hcontra).1
      omega
    · constructor
      · intro hmem
        obtain ⟨h1, h2, h3⟩ := (hinv.subsEq s2 hs2n e2).mp hmem
        exact ⟨Nat.lt_succ_of_lt h1, h2, h3⟩
      · rintro ⟨h1, h2, h3⟩
        have h1n : e2 < st.neffs + 1 := h1
        refine (hinv.subsEq s2 hs2n e2).mpr ⟨?_, h2, h3⟩
        omega
  · intro e2 heq
    obtain ⟨h1, h2⟩ := hinv.ctxWf e2 heq
    exact ⟨Nat.lt_succ_of_lt h1, h2⟩
  · intro j hj
    exact Nat.lt_succ_of_lt (hinv.queueWf j hj)
  · intro e2 he2
    have he2n : st.neffs + 1 ≤ e2 := he2
    simp only
    have heq : e2 ≠ st.neffs := by omega
    rw [Function.update_noteq heq]
    exact hinv.effsHi e2 (by omega)

theorem dispFold_no_dispose {e : Nat} {ext : List Ev}
    (h : ∀ ev ∈ ext, ∀ y, ev ≠ Ev.disposeEv y) :
    ext.foldl (dispStep e) false = false := by
  induction ext with
  | nil => rfl
  | cons ev ext ih =>
      have hrest : ∀ ev2 ∈ ext, ∀ y, ev2 ≠ Ev.disposeEv y :=
        fun ev2 h2 => h ev2 (List.mem_cons_of_mem _ h2)
      have hstep : dispStep e false ev = false := by
        cases ev with
        | disposeEv y => exact absurd rfl (h _ (List.mem_cons_self _ _) y)
        | beginEv e2 => simp [dispStep]
        | readEv e2 s => rfl
        | cleanEv t => rfl
        | scopePushEv => rfl
      simp only [List.foldl_cons, hstep]
      exact ih hrest

theorem regRet_log (e : Nat) (ret : Option Nat) (st : St) : (regRet e ret st).log = st.log := by
  cases ret <;> rfl

theorem regRet_ctx (e : Nat) (ret : Option Nat) (st : St) : (regRet e ret st).ctx = st.ctx := by
  cases ret <;> rfl

theorem regRet_queue (e : Nat) (ret : Option Nat) (st : St) :
    (regRet e ret st).queue = st.queue := by
  cases ret <;> rfl

theorem regRet_neffs (e : Nat) (ret : Option Nat) (st : St) :
    (regRet e ret st).neffs = st.neffs := by
  cases ret <;> rfl

theorem regRet_nsigs (e : Nat) (ret : Option Nat) (st : St) :
    (regRet e ret st).nsigs = st.nsigs := by
  cases ret <;> rfl

theorem regRet_flushing (e : Nat) (ret : Option Nat) (st : St) :
    (regRet e ret st).flushing = st.flushing := by
  cases ret <;> rfl

theorem regRet_pending (e : Nat) (ret : Option Nat) (st : St) :
    (regRet e ret st).pending = st.pending := by
  cases ret <;> rfl

theorem regRet_sigs (e : Nat) (ret : Option Nat) (st : St) : (regRet e ret st).sigs = st.sigs := by
  cases ret <;> rfl

theorem regRet_effs_ne {e e2 : Nat} (ret : Option Nat) (st : St) (h : e2 ≠ e) :
    (regRet e ret st).effs e2 = st.effs e2 := by
  cases ret with
  | none => rfl
  | some tok =>
      show Function.update st.effs e _ e2 = _
      rw [Function.update_noteq h]

theorem preRun_effs_ne {e e2 : Nat} (st : St) (h : e2 ≠ e) :
    (preRun e st).effs e2 = st.effs e2 := by
  show Function.update st.effs e _ e2 = _
  rw [Function.update_noteq h]

theorem preRun_effs_self (e : Nat) (st : St) :
    (preRun e st).effs e = { st.effs e with deps := [], cleanups := [] } := by
  show Function.update st.effs e _ e = _
  rw [Function.update_same]

theorem regRet_cleanups_self (e : Nat) (ret : Option Nat) (st : St) :
    ((regRet e ret st).effs e).cleanups = (st.effs e).cleanups ++ ret.toList := by
  cases ret with
  | none => simp [regRet]
  | some tok =>
      show (Function.update st.effs e _ e).cleanups = _
      rw [Function.update_same]
      rfl

theorem regRet_deps (e e2 : Nat) (ret : Option Nat) (st : St) :
    ((regRet e ret st).effs e2).deps = (st.effs e2).deps := by
  cases ret with
  | none => rfl
  | some tok =>
      by_cases h : e2 = e
      · subst h
        show (Function.update st.effs e2 _ e2).deps = _
        rw [Function.update_same]
      · show (Function.update st.effs e _ e2).deps = _
        rw [Function.update_noteq h]

/-- Closing an `effect(fn)` construction bracket: given the body's
`Steps` from the post-`preRun` state, the whole construction is a
run-internal step (`ret2` is the cleanup registered on normal return;
instantiated with `none` for the exception path, where `regRet` is the
identity). -/
theorem mkEff_end (cs : List Cmd) (ret ret2 : Option Nat) (st st3 : St) (hinv : Inv st)
    (hb : Steps (preRun st.neffs { st with
        effs := Function.update st.effs st.neffs ⟨cs, ret, [], []⟩,
        neffs := st.neffs + 1 }) st3) :
    Steps st { regRet st.neffs ret2 st3 with ctx := st.ctx } := by
  set st1 : St := { st with
    effs := Function.update st.effs st.neffs ⟨cs, ret, [], []⟩,
    neffs := st.neffs + 1 } with hst1
  have heff1 : st1.effs st.neffs = ⟨cs, ret, [], []⟩ := Function.update_same _ _ _
  set st2 : St := preRun st.neffs st1 with hst2
  have hlog2 : st2.log = st.log ++ [Ev.beginEv st.neffs] := by
    show st1.log ++ (st1.effs st.neffs).cleanups.map Ev.cleanEv ++ [Ev.beginEv st.neffs] = _
    rw [heff1]
    simp
  have hn2 : st2.neffs = st.neffs + 1 := rfl
  obtain ⟨extB, hlogB, hkindsB, htouchB⟩ := hb.logExt
  have huntouchB : ∀ e, e < st.neffs → ∀ ev ∈ extB, ¬ EvTouches e ev := by
    intro e he ev hev
    refine htouchB e (by omega) ?_ ev hev
    show some st.neffs ≠ some e
    intro hcontra
    have := Option.some.inj hcontra
    omega
  have heid3 : st.neffs < st3.neffs := lt_of_lt_of_le (by omega) hb.neffsLe
  have hlog3 : st3.log = (st.log ++ [Ev.beginEv st.neffs]) ++ extB := by
    rw [hlogB, hlog2]
  refine ⟨?_, rfl, ?_, ?_, ?_, ?_, ?_, ?_⟩
  · -- the invariant with the context restored
    have hinv4 : Inv (regRet st.neffs ret2 st3) := regRet_inv _ ret2 st3 hb.inv heid3
    refine ⟨hinv4.logWf, hinv4.depsEq, hinv4.subsEq, ?_, hinv4.queueWf, hinv4.queueNd,
      hinv4.subsNd, hinv4.sigsHi, hinv4.effsHi⟩
    intro e2 heq
    simp only at heq
    obtain ⟨he2, hd2⟩ := hinv.ctxWf e2 heq
    refine ⟨by rw [regRet_neffs]; omega, ?_⟩
    show dispAfter e2 (regRet st.neffs ret2 st3).log = false
    rw [regRet_log, hlog3, dispAfter_untouched (huntouchB e2 he2),
      dispAfter_snoc_other _ (not_touches_begin (by omega))]
    exact hd2
  · rw [regRet_neffs]
    omega
  · rw [regRet_nsigs]
    exact le_trans (le_refl _) hb.nsigsLe
  · rw [regRet_queue]
    exact hb.queuePref
  · intro hf
    have h2 := hb.flushMono hf
    rw [regRet_flushing, regRet_pending]
    exact h2
  · intro e2 he2
    rw [regRet_effs_ne ret2 st3 (show e2 ≠ st.neffs by omega)]
    rw [hb.cleanupsEq e2 (by omega)]
    rw [hst2, preRun_effs_ne st1 (show e2 ≠ st.neffs by omega)]
    rw [hst1]
    show (Function.update st.effs st.neffs ⟨cs, ret, [], []⟩ e2).cleanups = _
    rw [Function.update_noteq (show e2 ≠ st.neffs by omega)]
  · refine ⟨Ev.beginEv st.neffs :: extB, ?_, ?_, ?_⟩
    · rw [regRet_log, hlog3]
      simp
    · intro ev hev
      rcases List.mem_cons.mp hev with rfl | h
      · exact Or.inr ⟨st.neffs, rfl, le_refl _⟩
      · rcases hkindsB ev h with hr | ⟨a, rfl, ha⟩
        · exact Or.inl hr
        · exact Or.inr ⟨a, rfl, by omega⟩
    · intro e2 he2 _ ev hev
      rcases List.mem_cons.mp hev with rfl | h
      · exact not_touches_begin (by omega)
      · exact huntouchB e2 he2 ev h

/-- The construction of a nested `effect(fn)` is a run-internal step,
given an oracle for the body's commands. -/
theorem mkEff_steps (cs : List Cmd) (ret : Option Nat) (st : St) (hinv : Inv st)
    (hbody : ∀ st2, Inv st2 → Steps st2 (runCmds cs st2).state) :
    Steps st (runCmd (Cmd.mkEff cs ret) st).state := by
  simp only [runCmd]
  have hinv1 := alloc_inv cs ret st hinv
  have hinv2 := preRun_inv st.neffs _ hinv1 (Nat.lt_succ_self _)
  have hb := hbody _ hinv2
  cases hres : runCmds cs (preRun st.neffs { st with
      effs := Function.update st.effs st.neffs ⟨cs, ret, [], []⟩,
      neffs := st.neffs + 1 }) with
  | ok st3 =>
      rw [hres] at hb
      simp only [Res.state] at hb
      simp only [postRun, Res.state]
      exact mkEff_end cs ret ret st st3 hinv hb
  | exc st3 =>
      rw [hres] at hb
      simp only [Res.state] at hb
      simp only [postRun, Res.state]
      exact mkEff_end cs ret none st st3 hinv hb

/-- `ignore` inside a body is a run-internal step. -/
theorem ignoreC_steps (cs : List Cmd) (st : St) (hinv : Inv st)
    (hbody : ∀ st2, Inv st2 → Steps st2 (runCmds cs st2).state) :
    Steps st (runCmd (Cmd.ignoreC cs) st).state := by
  simp only [runCmd]
  have hb := hbody { st with ctx := none } (inv_ctx_none hinv)
  cases hres : runCmds cs { st with ctx := none } with
  | ok st1 =>
      rw [hres] at hb
      simp only [Res.state] at hb ⊢
      exact restore_steps hinv hb
  | exc st1 =>
      rw [hres] at hb
      simp only [Res.state] at hb ⊢
      exact restore_steps hinv hb

/-- `scope` inside a body is a run-internal step; the conditional push
never fires because the context is still cleared after `fn` returns. -/
theorem scopeC_steps (cs : List Cmd) (st : St) (hinv : Inv st)
    (hbody : ∀ st2, Inv st2 → Steps st2 (runCmds cs st2).state) :
    Steps st (runCmd (Cmd.scopeC cs) st).state := by
  simp only [runCmd]
  have hb := hbody { st with ctx := none } (inv_ctx_none hinv)
  cases hres : runCmds cs { st with ctx := none } with
  | ok st1 =>
      rw [hres] at hb
      simp only [Res.state] at hb ⊢
      have hc : st1.ctx = none := hb.ctxEq
      simp only [hc, Option.isSome_none, Bool.false_eq_true, if_false]
      exact restore_steps hinv hb
  | exc st1 =>
      rw [hres] at hb
      simp only [Res.state] at hb ⊢
      exact restore_steps hinv hb

/-- The master lemma: every run-internal command execution preserves the
invariant and is a `Steps`.  Proven by strong induction on the size of the
command syntax (nested effect constructions run structurally smaller
bodies). -/
theorem runSteps (n : Nat) :
    (∀ (c : Cmd) (st : St), sizeOf c ≤ n → Inv st → Steps st (runCmd c st).state) ∧
    (∀ (cs : List Cmd) (st : St), sizeOf cs ≤ n → Inv st → Steps st (runCmds cs st).state) := by
  induction n with
  | zero =>
      constructor
      · intro c st hc _
        cases c <;> simp at hc
      · intro cs st hc _
        cases cs <;> simp at hc
  | succ n ih =>
      constructor
      · intro c st hc hinv
        cases c with
        | readC s =>
            simp only [runCmd, Res.state]
            exact readSig_steps s st hinv
        | writeC s ex =>
            simp only [runCmd, Res.state]
            have h1 := evalDExpr_steps ex st hinv
            exact h1.transS (writeVal_steps s _ _ h1.inv)
        | iteC d t f =>
            simp only [runCmd]
            have h1 := evalDExpr_steps d st hinv
            by_cases htr : truthy (evalDExpr d st).1 = true
            · rw [if_pos htr]
              refine h1.transS (ih.2 t _ ?_ h1.inv)
              simp at hc
              omega
            · rw [if_neg htr]
              refine h1.transS (ih.2 f _ ?_ h1.inv)
              simp at hc
              omega
        | throwC =>
            simp only [runCmd, Res.state]
            exact Steps.reflS hinv
        | ignoreC cs =>
            refine ignoreC_steps cs st hinv (fun st2 hinv2 => ih.2 cs st2 ?_ hinv2)
            simp at hc
            omega
        | scopeC cs =>
            refine scopeC_steps cs st hinv (fun st2 hinv2 => ih.2 cs st2 ?_ hinv2)
            simp at hc
            omega
        | mkEff cs ret =>
            refine mkEff_steps cs ret st hinv (fun st2 hinv2 => ih.2 cs st2 ?_ hinv2)
            simp at hc
            omega
      · intro cs st hc hinv
        cases cs with
        | nil =>
            simp only [runCmds, Res.state]
            exact Steps.reflS hinv
        | cons c cs2 =>
            simp only [runCmds]
            have h1 := ih.1 c st (by simp at hc; omega) hinv
            cases hres : runCmd c st with
            | ok st1 =>
                rw [hres] at h1
                simp only [Res.state] at h1
                have h2 := ih.2 cs2 st1 (by simp at hc; omega) h1.inv
                exact h1.transS h2
            | exc st1 =>
                rw [hres] at h1
                simp only [Res.state] at h1 ⊢
                exact h1

/-- Any command-list execution from an invariant state is a `Steps`. -/
theorem runCmds_steps (cs : List Cmd) (st : St) (hinv : Inv st) :
    Steps st (runCmds cs st).state :=
  (runSteps (sizeOf cs)).2 cs st (le_refl _) hinv

theorem readsAfter_snoc_dispose (e2 a : Nat) (log : List Ev) :
    readsAfter e2 (log ++ [Ev.disposeEv a]) = readsAfter e2 log := by
  rw [readsAfter_append]
  simp [readsStep]

theorem runEffectTop_facts (e : Nat) (st : St) (hinv : Inv st) (he : e < st.neffs) :
    EffRun st e (runEffectTop e st).state := by
  have hinv2 := preRun_inv e st hinv he
  have hb := runCmds_steps (st.effs e).bodyCmds (preRun e st) hinv2
  obtain ⟨extB, hlogB, hkindsB, htouchB⟩ := hb.logExt
  have hnoDispB : ∀ ev ∈ extB, ∀ y, ev ≠ Ev.disposeEv y := by
    intro ev hev y
    rcases hkindsB ev hev with ⟨a, b, rfl⟩ | ⟨a, rfl, _⟩ <;> simp
  have hdisp : ∀ e2, e2 < st.neffs → dispAfter e2 st.log = false →
      dispAfter e2 ((runCmds (st.effs e).bodyCmds (preRun e st)).state).log = false := by
    intro e2 he2 hd2
    rw [hlogB]
    show dispAfter e2 ((st.log ++ (st.effs e).cleanups.map Ev.cleanEv
      ++ [Ev.beginEv e]) ++ extB) = false
    rw [dispAfter_append]
    have hinner : dispAfter e2 (st.log ++ (st.effs e).cleanups.map Ev.cleanEv
        ++ [Ev.beginEv e]) = false := by
      by_cases heq : e2 = e
      · subst heq
        exact dispAfter_pre_self e2 st.log _
      · rw [dispAfter_pre_other (fun h2 => heq h2.symm)]
        exact hd2
    rw [hinner]
    exact dispFold_no_dispose hnoDispB
  have hclean : ∀ st3 : St, (runCmds (st.effs e).bodyCmds (preRun e st)).state = st3 →
      (st3.effs e).cleanups = [] := by
    intro st3 hres
    rw [hres] at hb
    rw [hb.cleanupsEq e he, preRun_effs_self]
  have hmain : ∀ (st3 : St) (ret2 : Option Nat),
      (runCmds (st.effs e).bodyCmds (preRun e st)).state = st3 →
      EffRun st e { regRet e ret2 st3 with ctx := st.ctx } := by
    intro st3 ret2 hres
    have hcl3 : (st3.effs e).cleanups = [] := hclean st3 hres
    rw [hres] at hb hdisp
    obtain ⟨extB2, hlogB2, hkindsB2, htouchB2⟩ := hb.logExt
    have he3 : e < st3.neffs := lt_of_lt_of_le he hb.neffsLe
    refine ⟨?_, rfl, ?_, ?_, ?_, ?_, ?_, ?_⟩
    · have hinv4 : Inv (regRet e ret2 st3) := regRet_inv e ret2 st3 hb.inv he3
      refine ⟨hinv4.logWf, hinv4.depsEq, hinv4.subsEq, ?_, hinv4.queueWf, hinv4.queueNd,
        hinv4.subsNd, hinv4.sigsHi, hinv4.effsHi⟩
      intro e2 heq
      simp only at heq
      obtain ⟨he2, hd2⟩ := hinv.ctxWf e2 heq
      refine ⟨by rw [regRet_neffs]; exact lt_of_lt_of_le he2 hb.neffsLe, ?_⟩
      show dispAfter e2 (regRet e ret2 st3).log = false
      rw [regRet_log]
      exact hdisp e2 he2 hd2
    · rw [regRet_neffs]
      exact hb.neffsLe
    · rw [regRet_nsigs]
      exact hb.nsigsLe
    · rw [regRet_queue]
      exact hb.queuePref
    · intro hf
      rw [regRet_flushing, regRet_pending]
      exact hb.flushMono hf
    · intro st4 hres4
      simp only [runEffectTop] at hres4
      cases hres5 : runCmds (st.effs e).bodyCmds (preRun e st) with
      | ok st5 =>
          rw [hres5] at hres4
          simp only [postRun] at hres4
          have hst4 : { regRet e (st.effs e).bodyRet st5 with ctx := st.ctx } = st4 :=
            Res.ok.inj hres4
          have hcl5 : (st5.effs e).cleanups = [] := by
            refine hclean st5 ?_
            rw [hres5]
            rfl
          rw [← hst4]
          show ((regRet e (st.effs e).bodyRet st5).effs e).cleanups = _
          rw [regRet_cleanups_self, hcl5]
          simp
      | exc st5 =>
          rw [hres5] at hres4
          simp only [postRun] at hres4
          exact absurd hres4 (fun h => Res.noConfusion h)
    · refine ⟨extB2, ?_, ?_⟩
      · rw [regRet_log, hlogB2]
        show (st.log ++ (st.effs e).cleanups.map Ev.cleanEv ++ [Ev.beginEv e]) ++ extB2 = _
        simp
      · intro ev hev
        rcases hkindsB2 ev hev with hr | ⟨a, ha, hle⟩
        · exact Or.inl hr
        · exact Or.inr ⟨a, ha, hle⟩
  simp only [runEffectTop]
  cases hres : runCmds (st.effs e).bodyCmds (preRun e st) with
  | ok st3 =>
      simp only [postRun, Res.state]
      refine hmain st3 (st.effs e).bodyRet ?_
      rw [hres]
      rfl
  | exc st3 =>
      simp only [postRun, Res.state]
      refine hmain st3 none ?_
      rw [hres]
      rfl

/-! ## Top-level (trace) step lemmas -/

theorem TStep.reflT {st : St} (h : Inv st) : TStep st st :=
  ⟨h, rfl, ⟨[], by simp⟩⟩

theorem TStep.transT {a b c : St} (h1 : TStep a b) (h2 : TStep b c) : TStep a c := by
  obtain ⟨e1, hl1, hn1⟩ := h1.logExt
  obtain ⟨e2, hl2, hn2⟩ := h2.logExt
  refine ⟨h2.inv, h2.ctxEq.trans h1.ctxEq, ⟨e1 ++ e2, by simp [hl2, hl1], ?_⟩⟩
  intro hmem
  rcases List.mem_append.mp hmem with h | h
  · exact hn1 h
  · exact hn2 h

theorem Steps.tstepS {st st2 : St} (h : Steps st st2) : TStep st st2 := by
  obtain ⟨ext, hl, hkinds, _⟩ := h.logExt
  refine ⟨h.inv, h.ctxEq, ⟨ext, hl, ?_⟩⟩
  intro hmem
  rcases hkinds _ hmem with ⟨a, b, heq⟩ | ⟨a, heq, _⟩ <;> cases heq

theorem EffRun.tstepE {st st2 : St} {e : Nat} (h : EffRun st e st2) : TStep st st2 := by
  obtain ⟨rest, hl, hkinds⟩ := h.logExt
  refine ⟨h.inv, h.ctxEq,
    ⟨(st.effs e).cleanups.map Ev.cleanEv ++ Ev.beginEv e :: rest, by simp [hl], ?_⟩⟩
  intro hmem
  rcases List.mem_append.mp hmem with hm | hm
  · rcases List.mem_map.mp hm with ⟨t, _, heq⟩
    cases heq
  · rcases List.mem_cons.mp hm with heq | hm2
    · cases heq
    · rcases hkinds _ hm2 with ⟨a, b, heq⟩ | ⟨a, heq, _⟩ <;> cases heq

theorem readsAfter_dispose_ext (e2 e : Nat) (log : List Ev) (toks : List Nat) :
    readsAfter e2 (log ++ toks.map Ev.cleanEv ++ [Ev.disposeEv e]) = readsAfter e2 log := by
  rw [readsAfter_snoc_dispose, readsAfter_untouched (no_touches_cleanups toks)]

theorem dispAfter_snoc_dispose_self2 (e : Nat) (log : List Ev) (toks : List Nat) :
    dispAfter e (log ++ toks.map Ev.cleanEv ++ [Ev.disposeEv e]) = true := by
  rw [dispAfter_snoc_dispose_self]

theorem dispAfter_dispose_ext_other {e2 e : Nat} (h : e ≠ e2) (log : List Ev)
    (toks : List Nat) :
    dispAfter e2 (log ++ toks.map Ev.cleanEv ++ [Ev.disposeEv e]) = dispAfter e2 log := by
  rw [dispAfter_snoc_other _ (not_touches_dispose h),
    dispAfter_untouched (no_touches_cleanups toks)]

/-- The disposer preserves the invariant; at a top-level state (no active
context) it is a trace step. -/
theorem disposeRun_tstep (e : Nat) (st : St) (hinv : Inv st) (hctx : st.ctx = none) :
    TStep st (disposeRun e st) := by
  unfold disposeRun
  by_cases he : e < st.neffs
  · rw [if_pos he]
    have hdeps : (st.effs e).deps = readsAfter e st.log := hinv.depsEq e he
    have hdnd : (st.effs e).deps.Nodup := hdeps ▸ readsAfter_nodup e st.log
    refine ⟨⟨?_, ?_, ?_, ?_, hinv.queueWf, hinv.queueNd, ?_, ?_, hinv.effsHi⟩, rfl, ?_⟩
    · intro ev hev
      simp only [List.append_assoc, List.mem_append, List.mem_singleton] at hev
      rcases hev with h | h | rfl
      · exact hinv.logWf ev h
      · rcases List.mem_map.mp h with ⟨t, _, rfl⟩
        trivial
      · exact he
    · intro e2 he2
      simp only
      rw [readsAfter_dispose_ext]
      exact hinv.depsEq e2 he2
    · intro s2 hs2 e2
      simp only
      by_cases hmem : s2 ∈ (st.effs e).deps
      · rw [unsubscribeAll_mem hdnd hmem]
        by_cases heq : e2 = e
        · subst heq
          rw [readsAfter_dispose_ext, dispAfter_snoc_dispose_self2]
          simp only [Bool.true_eq_false, and_false, iff_false]
          exact fun hc => (hinv.subsNd s2 hs2).not_mem_erase hc
        · rw [List.mem_erase_of_ne heq, readsAfter_dispose_ext,
            dispAfter_dispose_ext_other (fun h2 => heq h2.symm)]
          exact hinv.subsEq s2 hs2 e2
      · rw [unsubscribeAll_not_mem hmem]
        by_cases heq : e2 = e
        · subst heq
          rw [readsAfter_dispose_ext, dispAfter_snoc_dispose_self2]
          simp only [Bool.true_eq_false, and_false, iff_false]
          intro hc
          exact hmem (hdeps ▸ ((hinv.subsEq s2 hs2 e2).mp hc).2.1)
        · rw [readsAfter_dispose_ext,
            dispAfter_dispose_ext_other (fun h2 => heq h2.symm)]
          exact hinv.subsEq s2 hs2 e2
    · intro e2 h2
      have h3 : st.ctx = some e2 := h2
      rw [hctx] at h3
      cases h3
    · intro s2 hs2
      simp only
      by_cases hmem : s2 ∈ (st.effs e).deps
      · rw [unsubscribeAll_mem hdnd hmem]
        exact (hinv.subsNd s2 hs2).erase e
      · rw [unsubscribeAll_not_mem hmem]
        exact hinv.subsNd s2 hs2
    · intro s2 hs2
      have hs2n : st.nsigs ≤ s2 := hs2
      simp only
      have hmem : s2 ∉ (st.effs e).deps := fun h2 => by
        have := deps_lt_nsigs hinv he h2
        omega
      rw [unsubscribeAll_not_mem hmem]
      exact hinv.sigsHi s2 hs2n
    · refine ⟨(st.effs e).cleanups.map Ev.cleanEv ++ [Ev.disposeEv e], by simp, ?_⟩
      intro hmem
      rcases List.mem_append.mp hmem with h | h
      · rcases List.mem_map.mp h with ⟨t, _, heq⟩
        cases heq
      · simp only [List.mem_singleton] at h
        cases h
  · rw [if_neg he]
    exact TStep.reflT hinv

/-- `signal(initial)`: allocation preserves the invariant. -/
theorem newSigRun_tstep (v : Val) (st : St) (hinv : Inv st) : TStep st (newSigRun v st) := by
  refine ⟨⟨?_, hinv.depsEq, ?_, hinv.ctxWf, hinv.queueWf, hinv.queueNd, ?_, ?_,
    hinv.effsHi⟩, rfl, ⟨[], by simp [newSigRun], by simp⟩⟩
  · intro ev hev
    exact EvWf_mono (hinv.logWf ev hev) (le_refl _) (Nat.le_succ _)
  · intro s2 hs2 e2
    have hs2n : s2 < st.nsigs + 1 := hs2
    simp only [newSigRun]
    by_cases heq : s2 = st.nsigs
    · subst heq
      rw [Function.update_same]
      simp only [List.not_mem_nil, false_iff, not_and]
      intro _ hr
      have := ((hinv.logWf _ (readsAfter_subset hr)) : _ ∧ _).2
      omega
    · rw [Function.update_noteq heq]
      exact hinv.subsEq s2 (by omega) e2
  · intro s2 hs2
    have hs2n : s2 < st.nsigs + 1 := hs2
    simp only [newSigRun]
    by_cases heq : s2 = st.nsigs
    · subst heq
      rw [Function.update_same]
      exact List.nodup_nil
    · rw [Function.update_noteq heq]
      exact hinv.subsNd s2 (by omega)
  · intro s2 hs2
    have hs2n : st.nsigs + 1 ≤ s2 := hs2
    simp only [newSigRun]
    rw [Function.update_noteq (by omega)]
    exact hinv.sigsHi s2 (by omega)

/-- One flush pass preserves the invariant and the context, and never
pushes the `scope` propagation event. -/
theorem flushLoop_tstep (fuel : Nat) :
    ∀ (i : Nat) (st : St), Inv st → TStep st (flushLoop fuel i st).1 := by
  induction fuel with
  | zero =>
      intro i st hinv
      exact TStep.reflT hinv
  | succ fuel ih =>
      intro i st hinv
      simp only [flushLoop]
      by_cases h : i < st.queue.length
      · rw [dif_pos h]
        have hj : st.queue.get ⟨i, h⟩ < st.neffs :=
          hinv.queueWf _ (List.get_mem st.queue i h)
        have hfacts := runEffectTop_facts (st.queue.get ⟨i, h⟩) st hinv hj
        cases hres : runEffectTop (st.queue.get ⟨i, h⟩) st with
        | ok st1 =>
            rw [hres] at hfacts
            simp only [Res.state] at hfacts
            exact hfacts.tstepE.transT (ih (i + 1) st1 hfacts.inv)
        | exc st1 =>
            rw [hres] at hfacts
            simp only [Res.state] at hfacts
            exact hfacts.tstepE
      · rw [dif_neg h]
        exact ⟨⟨hinv.logWf, hinv.depsEq, hinv.subsEq, hinv.ctxWf, by simp,
          List.nodup_nil, hinv.subsNd, hinv.sigsHi, hinv.effsHi⟩, rfl, ⟨[], by simp, by simp⟩⟩

theorem newEffRun_eq (cs : List Cmd) (ret : Option Nat) (st : St) :
    newEffRun cs ret st = (runCmd (Cmd.mkEff cs ret) st).state := by
  simp only [newEffRun, runCmd]

/-- Every top-level operation is a trace step. -/
theorem runOp_tstep (fuel : Nat) (st : St) (op : Op) (hinv : Inv st)
    (hctx : st.ctx = none) : TStep st (runOp fuel st op) := by
  cases op with
  | newSig v => exact newSigRun_tstep v st hinv
  | newEff cs ret =>
      show TStep st (newEffRun cs ret st)
      rw [newEffRun_eq]
      exact (mkEff_steps cs ret st hinv (fun st2 hinv2 => runCmds_steps _ st2 hinv2)).tstepS
  | compOp d =>
      show TStep st (computedOp d st)
      have h1 := newSigRun_tstep Val.undef st hinv
      show TStep st (newEffRun [Cmd.writeC st.nsigs d] none (newSigRun Val.undef st))
      rw [newEffRun_eq]
      exact h1.transT
        (mkEff_steps _ none _ h1.inv (fun st2 hinv2 => runCmds_steps _ st2 hinv2)).tstepS
  | writeOp s ex =>
      show TStep st (writeVal s (evalDExpr ex st).1 (evalDExpr ex st).2)
      have h1 := evalDExpr_steps ex st hinv
      exact (h1.transS (writeVal_steps s _ _ h1.inv)).tstepS
  | disposeOp e => exact disposeRun_tstep e st hinv hctx
  | scopeOp cs =>
      exact (scopeC_steps cs st hinv (fun st2 hinv2 => runCmds_steps _ st2 hinv2)).tstepS
  | micro =>
      show TStep st (if st.pending > 0 then
        (flushLoop fuel 0 { st with pending := st.pending - 1 }).1 else st)
      by_cases hp : st.pending > 0
      · rw [if_pos hp]
        have hinv1 : Inv { st with pending := st.pending - 1 } :=
          ⟨hinv.logWf, hinv.depsEq, hinv.subsEq, hinv.ctxWf, hinv.queueWf, hinv.queueNd,
            hinv.subsNd, hinv.sigsHi, hinv.effsHi⟩
        have h0 : TStep st { st with pending := st.pending - 1 } :=
          ⟨hinv1, rfl, ⟨[], by simp, by simp⟩⟩
        exact h0.transT (flushLoop_tstep fuel 0 _ hinv1)
      · rw [if_neg hp]
        exact TStep.reflT hinv

theorem initSt_inv : Inv initSt := by
  refine ⟨?_, ?_, ?_, ?_, ?_, ?_, ?_, ?_, ?_⟩
  · intro ev hev
    simp [initSt] at hev
  · intro e he
    simp [initSt] at he
  · intro s hs
    simp [initSt] at hs
  · intro e h
    simp [initSt] at h
  · intro j hj
    simp [initSt] at hj
  · exact List.nodup_nil
  · intro s hs
    simp [initSt] at hs
  · intro s _
    rfl
  · intro e _
    rfl

/-- The whole-trace preservation: from the initial state, any operation
sequence keeps the invariant, leaves no active tracking context between
operations, and never executes `scope`'s conditional push. -/
theorem runTrace_facts (fuel : Nat) (ops : List Op) :
    Inv (runTrace fuel ops) ∧ (runTrace fuel ops).ctx = none ∧
      Ev.scopePushEv ∉ (runTrace fuel ops).log := by
  suffices h : ∀ st, Inv st → st.ctx = none → Ev.scopePushEv ∉ st.log →
      Inv (ops.foldl (runOp fuel) st) ∧ (ops.foldl (runOp fuel) st).ctx = none ∧
        Ev.scopePushEv ∉ (ops.foldl (runOp fuel) st).log by
    exact h initSt initSt_inv rfl (by simp [initSt])
  induction ops with
  | nil => exact fun st hinv hctx hsp => ⟨hinv, hctx, hsp⟩
  | cons op ops ih =>
      intro st hinv hctx hsp
      have h1 := runOp_tstep fuel st op hinv hctx
      obtain ⟨ext, hl, hn⟩ := h1.logExt
      refine ih (runOp fuel st op) h1.inv (h1.ctxEq.trans hctx) ?_
      rw [hl]
      intro hmem
      rcases List.mem_append.mp hmem with h | h
      · exact hsp h
      · exact hn h

/-! ## Flush-pass ordering lemmas -/

theorem IsPref.cons2 {x : Nat} {a b : List Nat} (h : IsPref a b) : IsPref (x :: a) (x :: b) := by
  obtain ⟨t, rfl⟩ := h
  exact ⟨t, rfl⟩

/-- A completed flush pass: the jobs started are exactly the final queue
contents (of which the queue at entry is a prefix) from index `i` on, in
order; afterwards the queue is cleared and the flag reset. -/
theorem flushLoop_done (fuel : Nat) :
    ∀ (i : Nat) (st st2 : St) (L : List Nat), Inv st →
      flushLoop fuel i st = (st2, L, FOut.done) →
      ∃ q, IsPref st.queue q ∧ L = q.drop i ∧ st2.queue = [] ∧ st2.flushing = false := by
  induction fuel with
  | zero =>
      intro i st st2 L _ heq
      simp only [flushLoop, Prod.mk.injEq] at heq
      exact absurd heq.2.2 (by simp)
  | succ fuel ih =>
      intro i st st2 L hinv heq
      simp only [flushLoop] at heq
      by_cases h : i < st.queue.length
      · rw [dif_pos h] at heq
        have hj : st.queue.get ⟨i, h⟩ < st.neffs :=
          hinv.queueWf _ (List.get_mem st.queue i h)
        have hfacts := runEffectTop_facts (st.queue.get ⟨i, h⟩) st hinv hj
        cases hres : runEffectTop (st.queue.get ⟨i, h⟩) st with
        | ok st1 =>
            rw [hres] at heq hfacts
            simp only [Res.state] at hfacts
            simp only [Prod.mk.injEq] at heq
            obtain ⟨h1, h2, h3⟩ := heq
            have hr : flushLoop fuel (i + 1) st1 =
                ((flushLoop fuel (i + 1) st1).1, (flushLoop fuel (i + 1) st1).2.1,
                  FOut.done) := by
              rw [← h3]
            obtain ⟨q, hq1, hq2, hq3, hq4⟩ := ih (i + 1) st1 _ _ hfacts.inv hr
            have hpref : IsPref st.queue q := hfacts.queuePref.trans2 hq1
            have hlen : i < q.length := lt_of_lt_of_le h hpref.length_le
            refine ⟨q, hpref, ?_, by rw [← h1]; exact hq3, by rw [← h1]; exact hq4⟩
            rw [← h2, hq2, List.drop_eq_getElem_cons hlen]
            have hstable : q.get ⟨i, hlen⟩ = st.queue.get ⟨i, h⟩ := hpref.get_stable h hlen
            rw [← hstable]
            rfl
        | exc st1 =>
            rw [hres] at heq
            simp only [Prod.mk.injEq] at heq
            exact absurd heq.2.2 (by simp)
      · rw [dif_neg h] at heq
        simp only [Prod.mk.injEq] at heq
        obtain ⟨h1, h2, h3⟩ := heq
        refine ⟨st.queue, IsPref.rfl2, ?_, by rw [← h1], by rw [← h1]⟩
        rw [← h2, List.drop_eq_nil_of_le (by omega)]

/-- An aborted flush pass: the flag stays set, the pending count is
unchanged, the queue is not cleared (the entry queue is still a prefix),
and the jobs started form an initial segment of the still-pending jobs —
the jobs queued after the thrower did not run. -/
theorem flushLoop_aborted (fuel : Nat) :
    ∀ (i : Nat) (st st2 : St) (L : List Nat), Inv st → st.flushing = true →
      flushLoop fuel i st = (st2, L, FOut.aborted) →
      st2.flushing = true ∧ st2.pending = st.pending ∧ IsPref st.queue st2.queue ∧
        IsPref L (st2.queue.drop i) := by
  induction fuel with
  | zero =>
      intro i st st2 L _ _ heq
      simp only [flushLoop, Prod.mk.injEq] at heq
      exact absurd heq.2.2 (by simp)
  | succ fuel ih =>
      intro i st st2 L hinv hf heq
      simp only [flushLoop] at heq
      by_cases h : i < st.queue.length
      · rw [dif_pos h] at heq
        have hj : st.queue.get ⟨i, h⟩ < st.neffs :=
          hinv.queueWf _ (List.get_mem st.queue i h)
        have hfacts := runEffectTop_facts (st.queue.get ⟨i, h⟩) st hinv hj
        cases hres : runEffectTop (st.queue.get ⟨i, h⟩) st with
        | ok st1 =>
            rw [hres] at heq hfacts
            simp only [Res.state] at hfacts
            simp only [Prod.mk.injEq] at heq
            obtain ⟨h1, h2, h3⟩ := heq
            have hr : flushLoop fuel (i + 1) st1 =
                ((flushLoop fuel (i + 1) st1).1, (flushLoop fuel (i + 1) st1).2.1,
                  FOut.aborted) := by
              rw [← h3]
            have hfm := hfacts.flushMono hf
            obtain ⟨ha1, ha2, ha3, ha4⟩ := ih (i + 1) st1 _ _ hfacts.inv hfm.1 hr
            have hpref : IsPref st.queue st2.queue := by
              rw [← h1]
              exact hfacts.queuePref.trans2 ha3
            have hlen : i < st2.queue.length := lt_of_lt_of_le h hpref.length_le
            refine ⟨by rw [← h1]; exact ha1, by rw [← h1]; rw [ha2]; exact hfm.2, hpref, ?_⟩
            rw [← h2, List.drop_eq_getElem_cons hlen]
            have hstable : st2.queue.get ⟨i, hlen⟩ = st.queue.get ⟨i, h⟩ :=
              hpref.get_stable h hlen
            have hgoal : IsPref ((flushLoop fuel (i + 1) st1).2.1)
                (st2.queue.drop (i + 1)) := by
              rw [← h1]
              exact ha4
            have : st2.queue[i] = st.queue.get ⟨i, h⟩ := hstable
            rw [this]
            exact hgoal.cons2
        | exc st1 =>
            rw [hres] at heq hfacts
            simp only [Res.state] at hfacts
            simp only [Prod.mk.injEq] at heq
            obtain ⟨h1, h2, h3⟩ := heq
            have hfm := hfacts.flushMono hf
            have hpref : IsPref st.queue st2.queue := by
              rw [← h1]
              exact hfacts.queuePref
            have hlen : i < st2.queue.length := lt_of_lt_of_le h hpref.length_le
            refine ⟨by rw [← h1]; exact hfm.1, by rw [← h1]; exact hfm.2, hpref, ?_⟩
            rw [← h2, List.drop_eq_getElem_cons hlen]
            have hstable : st2.queue[i] = st.queue.get ⟨i, h⟩ := hpref.get_stable h hlen
            rw [hstable]
            exact ⟨st2.queue.drop (i + 1), rfl⟩
      · rw [dif_neg h] at heq
        simp only [Prod.mk.injEq] at heq
        exact absurd heq.2.2 (by simp)

/-! ## Scheduler stability and projection lemmas -/

theorem schedule_proj (j : Nat) (st : St) :
    (schedule j st).sigs = st.sigs ∧ (schedule j st).nsigs = st.nsigs ∧
    (schedule j st).effs = st.effs ∧ (schedule j st).neffs = st.neffs ∧
    (schedule j st).ctx = st.ctx ∧ (schedule j st).log = st.log := by
  unfold schedule
  by_cases hq : j ∈ st.queue
  · rw [if_pos hq]
    by_cases hf : st.flushing = true
    · rw [if_pos hf]
      exact ⟨rfl, rfl, rfl, rfl, rfl, rfl⟩
    · rw [if_neg hf]
      exact ⟨rfl, rfl, rfl, rfl, rfl, rfl⟩
  · rw [if_neg hq]
    by_cases hf : st.flushing = true
    · rw [if_pos hf]
      exact ⟨rfl, rfl, rfl, rfl, rfl, rfl⟩
    · rw [if_neg hf]
      exact ⟨rfl, rfl, rfl, rfl, rfl, rfl⟩

theorem schedule_stable (j : Nat) (st : St) (hf : st.flushing = true) :
    (schedule j st).flushing = true ∧ (schedule j st).pending = st.pending := by
  unfold schedule
  by_cases hq : j ∈ st.queue
  · rw [if_pos hq, if_pos hf]
    exact ⟨hf, rfl⟩
  · rw [if_neg hq, if_pos (show (({ st with queue := st.queue ++ [j] } : St).flushing) = true from hf)]
    exact ⟨hf, rfl⟩

theorem notifySubs_proj (l : List Nat) (st : St) :
    (notifySubs l st).sigs = st.sigs ∧ (notifySubs l st).nsigs = st.nsigs ∧
    (notifySubs l st).effs = st.effs ∧ (notifySubs l st).neffs = st.neffs ∧
    (notifySubs l st).ctx = st.ctx ∧ (notifySubs l st).log = st.log := by
  induction l generalizing st with
  | nil => exact ⟨rfl, rfl, rfl, rfl, rfl, rfl⟩
  | cons j rest ih =>
      obtain ⟨a1, a2, a3, a4, a5, a6⟩ := ih (schedule j st)
      obtain ⟨b1, b2, b3, b4, b5, b6⟩ := schedule_proj j st
      exact ⟨a1.trans b1, a2.trans b2, a3.trans b3, a4.trans b4, a5.trans b5, a6.trans b6⟩

theorem notifySubs_stable (l : List Nat) (st : St) (hf : st.flushing = true) :
    (notifySubs l st).flushing = true ∧ (notifySubs l st).pending = st.pending := by
  induction l generalizing st with
  | nil => exact ⟨hf, rfl⟩
  | cons j rest ih =>
      obtain ⟨b1, b2⟩ := schedule_stable j st hf
      obtain ⟨a1, a2⟩ := ih (schedule j st) b1
      exact ⟨a1, a2.trans b2⟩

theorem writeVal_proj (s : Nat) (arg : Val) (st : St) :
    (writeVal s arg st).nsigs = st.nsigs ∧ (writeVal s arg st).effs = st.effs ∧
    (writeVal s arg st).neffs = st.neffs ∧ (writeVal s arg st).ctx = st.ctx ∧
    (writeVal s arg st).log = st.log := by
  unfold writeVal
  by_cases hs : s < st.nsigs
  · rw [if_pos hs]
    by_cases heq : candidateVal (st.sigs s).value arg = (st.sigs s).value
    · rw [if_pos heq]
      exact ⟨rfl, rfl, rfl, rfl, rfl⟩
    · rw [if_neg heq]
      obtain ⟨a1, a2, a3, a4, a5, a6⟩ := notifySubs_proj (st.sigs s).subs
        { st with sigs := Function.update st.sigs s ({ st.sigs s with value := candidateVal (st.sigs s).value arg }) }
      exact ⟨a2, a3, a4, a5, a6⟩
  · rw [if_neg hs]
    exact ⟨rfl, rfl, rfl, rfl, rfl⟩

theorem writeVal_stable (s : Nat) (arg : Val) (st : St) (hf : st.flushing = true) :
    (writeVal s arg st).flushing = true ∧ (writeVal s arg st).pending = st.pending := by
  unfold writeVal
  by_cases hs : s < st.nsigs
  · rw [if_pos hs]
    by_cases heq : candidateVal (st.sigs s).value arg = (st.sigs s).value
    · rw [if_pos heq]
      exact ⟨hf, rfl⟩
    · rw [if_neg heq]
      exact notifySubs_stable _ _ hf
  · rw [if_neg hs]
    exact ⟨hf, rfl⟩

theorem evalDExpr_ctx_none (d : DExpr) (st : St) (hctx : st.ctx = none) :
    (evalDExpr d st).2 = st := by
  induction d generalizing st with
  | lit v => rfl
  | readS s =>
      show (readSig s st).2 = st
      unfold readSig
      by_cases hs : s < st.nsigs
      · rw [if_pos hs, hctx]
      · rw [if_neg hs]
  | add a b iha ihb =>
      show (evalDExpr b (evalDExpr a st).2).2 = st
      rw [iha st hctx]
      exact ihb st hctx

/-- From a state wedged by a throwing flush (flag set, no pending
microtask), writes and microtask turns never flush anything: the flag
stays set, no flush is ever arranged, and no effect runs (the log is
unchanged). -/
theorem starvation_aux (fuel : Nat) :
    ∀ (ops : List Op) (st : St), st.flushing = true → st.pending = 0 → st.ctx = none →
      OnlyWM ops →
      (ops.foldl (runOp fuel) st).flushing = true ∧
        (ops.foldl (runOp fuel) st).pending = 0 ∧
        (ops.foldl (runOp fuel) st).log = st.log ∧
        (ops.foldl (runOp fuel) st).ctx = none := by
  intro ops
  induction ops with
  | nil => exact fun st hf hp hc _ => ⟨hf, hp, rfl, hc⟩
  | cons op ops ih =>
      intro st hf hp hc honly
      have hrest : OnlyWM ops := fun op2 h2 => honly op2 (List.mem_cons_of_mem _ h2)
      rcases honly op (List.mem_cons_self _ _) with ⟨s, ex, rfl⟩ | rfl
      · simp only [List.foldl_cons]
        have heval : (evalDExpr ex st).2 = st := evalDExpr_ctx_none ex st hc
        have hw : runOp fuel st (Op.writeOp s ex) = writeVal s (evalDExpr ex st).1 st := by
          show writeVal s (evalDExpr ex st).1 (evalDExpr ex st).2 = _
          rw [heval]
        rw [hw]
        obtain ⟨hst1, hst2⟩ := writeVal_stable s (evalDExpr ex st).1 st hf
        obtain ⟨-, -, -, hctx2, hlog2⟩ := writeVal_proj s (evalDExpr ex st).1 st
        obtain ⟨r1, r2, r3, r4⟩ := ih (writeVal s (evalDExpr ex st).1 st) hst1
          (hst2.trans hp) (hctx2.trans hc) hrest
        exact ⟨r1, r2, r3.trans hlog2, r4⟩
      · simp only [List.foldl_cons]
        have hm : runOp fuel st Op.micro = st := by
          show (if st.pending > 0 then _ else st) = st
          rw [if_neg (by omega)]
        rw [hm]
        exact ih st hf hp hc hrest

/-! ## Queue-membership lemmas for the setter -/

theorem schedule_mem_self (j : Nat) (st : St) : j ∈ (schedule j st).queue := by
  unfold schedule
  by_cases hq : j ∈ st.queue
  · rw [if_pos hq]
    by_cases hf : st.flushing = true
    · rw [if_pos hf]
      exact hq
    · rw [if_neg hf]
      exact hq
  · rw [if_neg hq]
    have : j ∈ st.queue ++ [j] := List.mem_append_right _ (List.mem_singleton.mpr rfl)
    by_cases hf : st.flushing = true
    · rw [if_pos hf]
      exact this
    · rw [if_neg hf]
      exact this

theorem schedule_mem_mono {j2 : Nat} (j : Nat) (st : St) (h : j2 ∈ st.queue) :
    j2 ∈ (schedule j st).queue := by
  unfold schedule
  by_cases hq : j ∈ st.queue
  · rw [if_pos hq]
    by_cases hf : st.flushing = true
    · rw [if_pos hf]
      exact h
    · rw [if_neg hf]
      exact h
  · rw [if_neg hq]
    have : j2 ∈ st.queue ++ [j] := List.mem_append_left _ h
    by_cases hf : st.flushing = true
    · rw [if_pos hf]
      exact this
    · rw [if_neg hf]
      exact this

theorem schedule_mem_inv {j2 j : Nat} {st : St} (h : j2 ∈ (schedule j st).queue) :
    j2 ∈ st.queue ∨ j2 = j := by
  unfold schedule at h
  by_cases hq : j ∈ st.queue
  · rw [if_pos hq] at h
    by_cases hf : st.flushing = true
    · rw [if_pos hf] at h
      exact Or.inl h
    · rw [if_neg hf] at h
      exact Or.inl h
  · rw [if_neg hq] at h
    by_cases hf : st.flushing = true
    · rw [if_pos hf] at h
      rcases List.mem_append.mp h with h2 | h2
      · exact Or.inl h2
      · exact Or.inr (List.mem_singleton.mp h2)
    · rw [if_neg hf] at h
      rcases List.mem_append.mp h with h2 | h2
      · exact Or.inl h2
      · exact Or.inr (List.mem_singleton.mp h2)

theorem notifySubs_mem_mono {j2 : Nat} (l : List Nat) (st : St) (h : j2 ∈ st.queue) :
    j2 ∈ (notifySubs l st).queue := by
  induction l generalizing st with
  | nil => exact h
  | cons j rest ih => exact ih (schedule j st) (schedule_mem_mono j st h)

theorem notifySubs_mem_subs {j2 : Nat} (l : List Nat) (st : St) (h : j2 ∈ l) :
    j2 ∈ (notifySubs l st).queue := by
  induction l generalizing st with
  | nil => cases h
  | cons j rest ih =>
      rcases List.mem_cons.mp h with rfl | h2
      · exact notifySubs_mem_mono rest (schedule j2 st) (schedule_mem_self j2 st)
      · exact ih (schedule j st) h2

theorem notifySubs_mem_inv {j2 : Nat} {l : List Nat} {st : St}
    (h : j2 ∈ (notifySubs l st).queue) : j2 ∈ st.queue ∨ j2 ∈ l := by
  induction l generalizing st with
  | nil => exact Or.inl h
  | cons j rest ih =>
      rcases ih h with h2 | h2
      · rcases schedule_mem_inv h2 with h3 | rfl
        · exact Or.inl h3
        · exact Or.inr (List.mem_cons_self _ _)
      · exact Or.inr (List.mem_cons_of_mem _ h2)

/-! ## Value-level lemmas for the setter, the getter and derivations -/

/-- A write whose candidate value is `Object.is`-equal to the current
value is a complete no-op on the state. -/
theorem writeVal_noop {s : Nat} {arg : Val} {st : St}
    (h : candidateVal (st.sigs s).value arg = (st.sigs s).value) :
    writeVal s arg st = st := by
  unfold writeVal
  by_cases hs : s < st.nsigs
  · rw [if_pos hs, if_pos h]
  · rw [if_neg hs]

theorem readSig_val (s : Nat) (st : St) (hs : s < st.nsigs) :
    (readSig s st).1 = (st.sigs s).value := by
  unfold readSig
  rw [if_pos hs]
  cases st.ctx <;> rfl

theorem writeVal_value (s : Nat) (arg : Val) (st : St) (hs : s < st.nsigs) :
    ((writeVal s arg st).sigs s).value = candidateVal (st.sigs s).value arg := by
  unfold writeVal
  rw [if_pos hs]
  by_cases heq : candidateVal (st.sigs s).value arg = (st.sigs s).value
  · rw [if_pos heq]
    exact heq.symm
  · rw [if_neg heq]
    rw [(notifySubs_proj _ _).1]
    simp only
    rw [Function.update_same]

theorem pureEval_congr (d : DExpr) (vs vs2 : Nat → Val) (ns : Nat)
    (h : ∀ s, vs s = vs2 s) : pureEval d vs ns = pureEval d vs2 ns := by
  induction d with
  | lit v => rfl
  | readS s => simp only [pureEval, h s]
  | add a b iha ihb => simp only [pureEval, iha, ihb]

/-- Evaluating a body expression returns the pure value of the current
signal values, changes no signal value, and touches neither the signal
count nor the queue. -/
theorem evalDExpr_spec (d : DExpr) (st : St) :
    (evalDExpr d st).1 = pureEval d (valsOf st) st.nsigs ∧
    (∀ x, valsOf (evalDExpr d st).2 x = valsOf st x) ∧
    (evalDExpr d st).2.nsigs = st.nsigs ∧ (evalDExpr d st).2.queue = st.queue := by
  induction d generalizing st with
  | lit v => exact ⟨rfl, fun x => rfl, rfl, rfl⟩
  | readS s =>
      rw [show evalDExpr (DExpr.readS s) st = readSig s st from rfl]
      unfold readSig
      by_cases hs : s < st.nsigs
      · rw [if_pos hs]
        cases hctx : st.ctx with
        | none =>
            refine ⟨?_, fun x => rfl, rfl, rfl⟩
            simp [pureEval, valsOf, hs]
        | some e =>
            refine ⟨?_, ?_, rfl, rfl⟩
            · simp [pureEval, valsOf, hs]
            · intro x
              show ((Function.update st.sigs s
                ({ st.sigs s with subs := addOnce e (st.sigs s).subs }) x).value) = _
              by_cases hx : x = s
              · subst hx
                rw [Function.update_same]
                rfl
              · rw [Function.update_noteq hx]
                rfl
      · rw [if_neg hs]
        refine ⟨?_, fun x => rfl, rfl, rfl⟩
        simp [pureEval, hs]
  | add a b iha ihb =>
      obtain ⟨a1, a2, a3, a4⟩ := iha st
      obtain ⟨b1, b2, b3, b4⟩ := ihb (evalDExpr a st).2
      refine ⟨?_, fun x => (b2 x).trans (a2 x), b3.trans a3, b4.trans a4⟩
      show Val.num (asNum (evalDExpr a st).1 + asNum (evalDExpr b (evalDExpr a st).2).1) = _
      rw [a1, b1, a3, pureEval_congr b _ _ _ a2]
      rfl

theorem preRun_vals (e : Nat) (st : St) : ∀ x, valsOf (preRun e st) x = valsOf st x := by
  intro x
  simp only [valsOf, preRun]
  exact unsubscribeAll_value e _ st.sigs x

theorem runCmds_single_write (sid : Nat) (d : DExpr) (st : St) :
    runCmds [Cmd.writeC sid d] st =
      Res.ok (writeVal sid (evalDExpr d st).1 (evalDExpr d st).2) := by
  simp [runCmds, runCmd]

theorem candidateVal_not_fn {cur v : Val} (h : isFn v = false) : candidateVal cur v = v := by
  cases v with
  | undef => rfl
  | num n => rfl
  | fn r c => simp [isFn] at h

theorem writeVal_mem_inv {j s : Nat} {arg : Val} {st : St}
    (h : j ∈ (writeVal s arg st).queue) : j ∈ st.queue ∨ j ∈ (st.sigs s).subs := by
  unfold writeVal at h
  by_cases hs : s < st.nsigs
  · rw [if_pos hs] at h
    by_cases heq : candidateVal (st.sigs s).value arg = (st.sigs s).value
    · rw [if_pos heq] at h
      exact Or.inl h
    · rw [if_neg heq] at h
      rcases notifySubs_mem_inv h with h2 | h2
      · exact Or.inl h2
      · exact Or.inr h2
  · rw [if_neg hs] at h
    exact Or.inl h

theorem writeVal_notifies {s : Nat} {arg : Val} {st : St} {e2 : Nat} (hs : s < st.nsigs)
    (hne : candidateVal (st.sigs s).value arg ≠ (st.sigs s).value)
    (hmem : e2 ∈ (st.sigs s).subs) : e2 ∈ (writeVal s arg st).queue := by
  unfold writeVal
  rw [if_pos hs, if_neg hne]
  exact notifySubs_mem_subs _ _ hmem

theorem newEffRun_eq_top (cs : List Cmd) (ret : Option Nat) (st : St) :
    newEffRun cs ret st = (runEffectTop st.neffs { st with
      effs := Function.update st.effs st.neffs ⟨cs, ret, [], []⟩,
      neffs := st.neffs + 1 }).state := by
  simp only [newEffRun, runEffectTop, Function.update_same]

/-! ## The claims -/

/-- C1: Edge-exactness invariant of the dependency graph.  After any
sequence of top-level operations (signal/effect/computed construction,
writes, disposals, scopes, microtask flushes — with bodies built from
reads, writes, branches, throws, `ignore`, `scope` and nested `effect`):
every signal's subscriber set contains exactly the effects that performed
a tracked read of that signal since their most recent run began
(`readsAfter`, which resets at each run begin, so only the taken branch's
reads count) and that have not been disposed since that run began
(`dispAfter`); and every effect's dependency set equals exactly the set of
signals its most recent run has read (the clear-then-rebuild at run
start).  `readsAfter`/`dispAfter` are computed from an observation log
written only at the getter, run begin and disposal, so the statement ties
the concrete `subs`/`deps` sets to the observable read history. -/
theorem spec_c1_edge_exactness (fuel : Nat) (ops : List Op) :
    (∀ s, s < (runTrace fuel ops).nsigs → ∀ e,
        e ∈ ((runTrace fuel ops).sigs s).subs ↔
          (e < (runTrace fuel ops).neffs ∧
            s ∈ readsAfter e (runTrace fuel ops).log ∧
            dispAfter e (runTrace fuel ops).log = false)) ∧
    (∀ e, e < (runTrace fuel ops).neffs →
        ((runTrace fuel ops).effs e).deps = readsAfter e (runTrace fuel ops).log) := by
  have h := (runTrace_facts fuel ops).1
  exact ⟨h.subsEq, h.depsEq⟩

/-- Witness for C1 at a concrete trace: one signal, one effect that read
it; the effect is subscribed and its dependency set is exactly that
signal. -/
theorem spec_c1_edge_exactness_witness :
    (0 ∈ ((runTrace 5 [Op.newSig (Val.num 0), Op.newEff [Cmd.readC 0] none]).sigs 0).subs ↔
      (0 < (runTrace 5 [Op.newSig (Val.num 0), Op.newEff [Cmd.readC 0] none]).neffs ∧
        0 ∈ readsAfter 0 (runTrace 5 [Op.newSig (Val.num 0), Op.newEff [Cmd.readC 0] none]).log ∧
        dispAfter 0 (runTrace 5 [Op.newSig (Val.num 0), Op.newEff [Cmd.readC 0] none]).log
          = false)) ∧
    ((runTrace 5 [Op.newSig (Val.num 0), Op.newEff [Cmd.readC 0] none]).effs 0).deps =
      readsAfter 0 (runTrace 5 [Op.newSig (Val.num 0), Op.newEff [Cmd.readC 0] none]).log :=
  ⟨(spec_c1_edge_exactness 5 _).1 0 (by decide) 0,
    (spec_c1_edge_exactness 5 _).2 0 (by decide)⟩

/-- C2: A write whose candidate value (the literal, or the updater applied
to the current value — `candidateVal`) is `Object.is`-equal to the current
value is a complete no-op: the resulting state is equal to the input
state, so the stored value is unchanged, nothing is scheduled and no
subscriber set is modified. -/
theorem spec_c2_identity_write_noop (s : Nat) (arg : Val) (st : St)
    (h : candidateVal (st.sigs s).value arg = (st.sigs s).value) :
    writeVal s arg st = st :=
  writeVal_noop h

/-- Witness for C2: writing the value a signal already holds changes
nothing. -/
theorem spec_c2_identity_write_noop_witness :
    candidateVal ((runTrace 5 [Op.newSig (Val.num 0)]).sigs 0).value (Val.num 0)
        = ((runTrace 5 [Op.newSig (Val.num 0)]).sigs 0).value ∧
      writeVal 0 (Val.num 0) (runTrace 5 [Op.newSig (Val.num 0)])
        = runTrace 5 [Op.newSig (Val.num 0)] :=
  ⟨by decide, spec_c2_identity_write_noop 0 (Val.num 0) _ (by decide)⟩

/-- C7: Cleanup discipline.  Running an effect first executes the cleanup
callbacks accumulated by the previous run, in registration order, before
the body begins (`beginEv`), and never again during that run (the list is
cleared right after executing them, and nothing later in the run emits a
cleanup event); and on normal completion the effect's cleanup list holds
exactly the single callback returned by the body this run, if any
(`bodyRet.toList`, which has at most one element). -/
theorem spec_c7_cleanup_discipline (e : Nat) (st : St) (hinv : Inv st)
    (he : e < st.neffs) :
    (∃ rest, (runEffectTop e st).state.log =
        st.log ++ (st.effs e).cleanups.map Ev.cleanEv ++ Ev.beginEv e :: rest ∧
        ∀ tok, Ev.cleanEv tok ∉ rest) ∧
    (∀ st4, runEffectTop e st = Res.ok st4 →
        (st4.effs e).cleanups = (st.effs e).bodyRet.toList) := by
  have h := runEffectTop_facts e st hinv he
  constructor
  · obtain ⟨rest, hl, hkinds⟩ := h.logExt
    refine ⟨rest, hl, fun tok hmem => ?_⟩
    rcases hkinds _ hmem with ⟨a, b, heq⟩ | ⟨a, heq, _⟩ <;> cases heq
  · exact h.cleanupsOk

/-- Witness for C7 on a concrete effect that registered cleanup token 7 on
its first run: rerunning it executes that cleanup before the body begins
and re-registers it afterwards. -/
theorem spec_c7_cleanup_discipline_witness :
    (∃ rest,
        (runEffectTop 0 (runTrace 5 [Op.newSig (Val.num 0),
          Op.newEff [Cmd.readC 0] (some 7)])).state.log =
          (runTrace 5 [Op.newSig (Val.num 0), Op.newEff [Cmd.readC 0] (some 7)]).log ++
            ((runTrace 5 [Op.newSig (Val.num 0),
              Op.newEff [Cmd.readC 0] (some 7)]).effs 0).cleanups.map Ev.cleanEv ++
            Ev.beginEv 0 :: rest ∧
          ∀ tok, Ev.cleanEv tok ∉ rest) ∧
    (∀ st4, runEffectTop 0 (runTrace 5 [Op.newSig (Val.num 0),
          Op.newEff [Cmd.readC 0] (some 7)]) = Res.ok st4 →
        (st4.effs 0).cleanups =
          ((runTrace 5 [Op.newSig (Val.num 0),
            Op.newEff [Cmd.readC 0] (some 7)]).effs 0).bodyRet.toList) :=
  spec_c7_cleanup_discipline 0 _ (runTrace_facts 5 _).1 (by decide)

/-- C10: In `scope(fn)`, the branch that would push a disposal-propagating
cleanup when a tracking context is observed after `fn` returns never
executes: `scope` clears the context on entry and every construct run
inside `fn` restores the context it found, so the check always sees
`none`.  The semantics logs `scopePushEv` exactly when that branch is
taken; over every operation trace (including `scope` calls at top level
and nested inside effect bodies) the event never appears. -/
theorem spec_c10_scope_push_unreachable (fuel : Nat) (ops : List Op) :
    Ev.scopePushEv ∉ (runTrace fuel ops).log :=
  (runTrace_facts fuel ops).2.2

/-- Witness for C10 on a concrete trace containing both a top-level
`scope` and a `scope` nested inside an effect body. -/
theorem spec_c10_scope_push_unreachable_witness :
    Ev.scopePushEv ∉ (runTrace 5 [Op.newSig (Val.num 0),
      Op.scopeOp [Cmd.readC 0, Cmd.mkEff [Cmd.readC 0] none],
      Op.newEff [Cmd.scopeC [Cmd.readC 0]] none]).log :=
  spec_c10_scope_push_unreachable 5 _

/-- C6 counterexample: the setter does NOT distinguish literal values from
updaters when the stored type is itself a function type.  A signal holding
the identity function is written with the literal function value
`fn 1 (constC 5)` (a constant function, as a value to store); the setter's
`typeof nextValue === "function"` test treats it as an updater and applies
it, so the subsequent read returns `5` — not the written function value as
the claim requires. -/
theorem spec_c6_fn_literal_cex :
    ((runTrace 10 [Op.newSig (Val.fn 0 FnCode.idC),
        Op.writeOp 0 (DExpr.lit (Val.fn 1 (FnCode.constC 5)))]).sigs 0).value = Val.num 5 ∧
      Val.num 5 ≠ Val.fn 1 (FnCode.constC 5) := by
  constructor
  · decide
  · decide

/-- C6 amended: `write(v)` followed by `read()` synchronously returns the
candidate value `candidateVal` — the literal `v` when `v` is not a
function value, and the updater result `v(prev)` when `v` is any function
value.  The setter decides by a runtime `typeof` check, so a literal
function value cannot be stored by `write`: it is always applied as an
updater (see the counterexample). -/
theorem spec_c6_write_read_amended (s : Nat) (arg : Val) (st : St) (hs : s < st.nsigs) :
    ((writeVal s arg st).sigs s).value = candidateVal (st.sigs s).value arg ∧
    (readSig s (writeVal s arg st)).1 = candidateVal (st.sigs s).value arg := by
  have h1 := writeVal_value s arg st hs
  refine ⟨h1, ?_⟩
  have hs2 : s < (writeVal s arg st).nsigs := by
    rw [(writeVal_proj s arg st).1]
    exact hs
  rw [readSig_val s _ hs2, h1]

/-- Witness for the amended C6: writing the updater `succC` to a signal
holding `41` stores and then reads back `42`. -/
theorem spec_c6_write_read_amended_witness :
    (((writeVal 0 (Val.fn 3 FnCode.succC) (runTrace 5 [Op.newSig (Val.num 41)])).sigs 0).value
        = candidateVal ((runTrace 5 [Op.newSig (Val.num 41)]).sigs 0).value
            (Val.fn 3 FnCode.succC)) ∧
    ((readSig 0 (writeVal 0 (Val.fn 3 FnCode.succC) (runTrace 5 [Op.newSig (Val.num 41)]))).1
        = candidateVal ((runTrace 5 [Op.newSig (Val.num 41)]).sigs 0).value
            (Val.fn 3 FnCode.succC)) :=
  spec_c6_write_read_amended 0 (Val.fn 3 FnCode.succC) _ (by decide)

/-- C3: The scheduler contract.  (1) `schedule` appends the job only when
the identical job is not already present; (2) so the queue never holds
duplicates; (3) `schedule` leaves the flag set and arranges a flush
(increments the pending-microtask count) exactly when no flush was already
pending or in progress; (4) a completed flush pass runs jobs by increasing
index of one queue `q` that extends the queue at entry — i.e. FIFO order,
with jobs enqueued by running jobs appended to the same queue and executed
in the same pass, after all jobs enqueued before them (the loop bound is
re-read each step, which is what lets `L` cover all of `q`, not just the
entry queue). -/
theorem spec_c3_scheduler_contract :
    (∀ (j : Nat) (st : St), (schedule j st).queue =
        if j ∈ st.queue then st.queue else st.queue ++ [j]) ∧
    (∀ (j : Nat) (st : St), st.queue.Nodup → (schedule j st).queue.Nodup) ∧
    (∀ (j : Nat) (st : St), (schedule j st).flushing = true ∧
        (schedule j st).pending = st.pending + (if st.flushing = true then 0 else 1)) ∧
    (∀ (fuel i : Nat) (st st2 : St) (L : List Nat), Inv st →
        flushLoop fuel i st = (st2, L, FOut.done) →
        ∃ q, IsPref st.queue q ∧ L = q.drop i ∧ st2.queue = [] ∧ st2.flushing = false) := by
  refine ⟨?_, ?_, ?_, ?_⟩
  · intro j st
    unfold schedule
    by_cases hq : j ∈ st.queue
    · rw [if_pos hq, if_pos hq]
      by_cases hf : st.flushing = true
      · rw [if_pos hf]
      · rw [if_neg hf]
    · rw [if_neg hq, if_neg hq]
      by_cases hf : st.flushing = true
      · rw [if_pos hf]
      · rw [if_neg hf]
  · intro j st hnd
    unfold schedule
    by_cases hq : j ∈ st.queue
    · rw [if_pos hq]
      by_cases hf : st.flushing = true
      · rw [if_pos hf]
        exact hnd
      · rw [if_neg hf]
        exact hnd
    · rw [if_neg hq]
      have h2 := nodup_append_singleton hnd hq
      by_cases hf : st.flushing = true
      · rw [if_pos hf]
        exact h2
      · rw [if_neg hf]
        exact h2
  · intro j st
    unfold schedule
    by_cases hq : j ∈ st.queue
    · rw [if_pos hq]
      by_cases hf : st.flushing = true
      · rw [if_pos hf, if_pos hf]
        exact ⟨hf, rfl⟩
      · rw [if_neg hf, if_neg hf]
        exact ⟨rfl, rfl⟩
    · rw [if_neg hq]
      by_cases hf : st.flushing = true
      · rw [if_pos hf, if_pos hf]
        exact ⟨hf, rfl⟩
      · rw [if_neg hf, if_neg hf]
        exact ⟨rfl, rfl⟩
  · exact fun fuel i st st2 L hinv heq => flushLoop_done fuel i st st2 L hinv heq

/-- Witness for C3 at a concrete state: scheduling a fresh job appends it,
keeps the queue duplicate-free and arranges one flush; a concrete flush of
a two-job queue where the first job's rerun enqueues nothing new runs both
jobs in order and clears the queue. -/
theorem spec_c3_scheduler_contract_witness :
    ((schedule 1 (runTrace 5 [Op.newSig (Val.num 0), Op.newEff [Cmd.readC 0] none,
        Op.writeOp 0 (DExpr.lit (Val.num 1))])).queue =
      if 1 ∈ (runTrace 5 [Op.newSig (Val.num 0), Op.newEff [Cmd.readC 0] none,
        Op.writeOp 0 (DExpr.lit (Val.num 1))]).queue then
          (runTrace 5 [Op.newSig (Val.num 0), Op.newEff [Cmd.readC 0] none,
            Op.writeOp 0 (DExpr.lit (Val.num 1))]).queue
        else (runTrace 5 [Op.newSig (Val.num 0), Op.newEff [Cmd.readC 0] none,
            Op.writeOp 0 (DExpr.lit (Val.num 1))]).queue ++ [1]) ∧
    (∃ q, IsPref (runTrace 5 [Op.newSig (Val.num 0), Op.newEff [Cmd.readC 0] none,
          Op.newEff [Cmd.readC 0] none,
          Op.writeOp 0 (DExpr.lit (Val.num 1))]).queue q ∧
        (flushLoop 5 0 (runTrace 5 [Op.newSig (Val.num 0), Op.newEff [Cmd.readC 0] none,
          Op.newEff [Cmd.readC 0] none,
          Op.writeOp 0 (DExpr.lit (Val.num 1))])).2.1 = q.drop 0 ∧
        (flushLoop 5 0 (runTrace 5 [Op.newSig (Val.num 0), Op.newEff [Cmd.readC 0] none,
          Op.newEff [Cmd.readC 0] none,
          Op.writeOp 0 (DExpr.lit (Val.num 1))])).1.queue = [] ∧
        (flushLoop 5 0 (runTrace 5 [Op.newSig (Val.num 0), Op.newEff [Cmd.readC 0] none,
          Op.newEff [Cmd.readC 0] none,
          Op.writeOp 0 (DExpr.lit (Val.num 1))])).1.flushing = false) :=
  by
  constructor
  · exact spec_c3_scheduler_contract.1 1 _
  · have hdone : (flushLoop 5 0 (runTrace 5 [Op.newSig (Val.num 0),
        Op.newEff [Cmd.readC 0] none, Op.newEff [Cmd.readC 0] none,
        Op.writeOp 0 (DExpr.lit (Val.num 1))])).2.2 = FOut.done := by decide
    refine spec_c3_scheduler_contract.2.2.2 5 0 _ _ _ (runTrace_facts 5 _).1 ?_
    rw [← hdone]

/-- C4: Flush failure semantics.  (1) If every job of a flush pass
returns normally, afterwards the queue is empty and the flushing flag
reset.  (2) If a job throws, the pass aborts: the jobs started form an
initial segment of the still-pending jobs (those queued after the thrower
never ran), the queue is not cleared (the entry queue is still a prefix
of it), the flushing flag remains set and the pending-microtask count is
unchanged — in particular no new flush was arranged.  (3) Consequently,
from a wedged state (flag set, no pending microtask — exactly what an
aborted flush leaves, since firing the microtask consumed the only
pending one), any further writes and microtask turns never run anything:
the flag stays set, no flush is ever arranged (`schedule` only arranges
one when the flag is unset), and the log never grows. -/
theorem spec_c4_flush_failure :
    (∀ (fuel i : Nat) (st st2 : St) (L : List Nat), Inv st →
        flushLoop fuel i st = (st2, L, FOut.done) →
        st2.queue = [] ∧ st2.flushing = false) ∧
    (∀ (fuel i : Nat) (st st2 : St) (L : List Nat), Inv st → st.flushing = true →
        flushLoop fuel i st = (st2, L, FOut.aborted) →
        st2.flushing = true ∧ st2.pending = st.pending ∧ IsPref st.queue st2.queue ∧
          IsPref L (st2.queue.drop i)) ∧
    (∀ (fuel : Nat) (ops : List Op) (st : St), st.flushing = true → st.pending = 0 →
        st.ctx = none → OnlyWM ops →
        (ops.foldl (runOp fuel) st).flushing = true ∧
        (ops.foldl (runOp fuel) st).pending = 0 ∧
        (ops.foldl (runOp fuel) st).log = st.log) := by
  refine ⟨?_, ?_, ?_⟩
  · intro fuel i st st2 L hinv heq
    obtain ⟨q, _, _, h3, h4⟩ := flushLoop_done fuel i st st2 L hinv heq
    exact ⟨h3, h4⟩
  · exact fun fuel i st st2 L hinv hf heq => flushLoop_aborted fuel i st st2 L hinv hf heq
  · intro fuel ops st hf hp hc honly
    obtain ⟨h1, h2, h3, _⟩ := starvation_aux fuel ops st hf hp hc honly
    exact ⟨h1, h2, h3⟩

/-- Witness for C4 on concrete scenarios: a successful flush clears the
queue and resets the flag; the throwing trace's flush aborts, keeping the
flag, the pending count and the queue, running only an initial segment of
the jobs; and from the wedged state it leaves, a further write and
microtask turn change nothing (nothing ever flushes again). -/
theorem spec_c4_flush_failure_witness :
    ((flushLoop 10 0 (runTrace 10 okTrace)).1.queue = [] ∧
      (flushLoop 10 0 (runTrace 10 okTrace)).1.flushing = false) ∧
    ((flushLoop 10 0 (runTrace 10 thrTrace)).1.flushing = true ∧
      (flushLoop 10 0 (runTrace 10 thrTrace)).1.pending = (runTrace 10 thrTrace).pending ∧
      IsPref (runTrace 10 thrTrace).queue (flushLoop 10 0 (runTrace 10 thrTrace)).1.queue ∧
      IsPref (flushLoop 10 0 (runTrace 10 thrTrace)).2.1
        ((flushLoop 10 0 (runTrace 10 thrTrace)).1.queue.drop 0)) ∧
    (([Op.writeOp 0 (DExpr.lit (Val.num 2)), Op.micro].foldl (runOp 10)
        (runTrace 10 (thrTrace ++ [Op.micro]))).flushing = true ∧
      ([Op.writeOp 0 (DExpr.lit (Val.num 2)), Op.micro].foldl (runOp 10)
        (runTrace 10 (thrTrace ++ [Op.micro]))).pending = 0 ∧
      ([Op.writeOp 0 (DExpr.lit (Val.num 2)), Op.micro].foldl (runOp 10)
        (runTrace 10 (thrTrace ++ [Op.micro]))).log =
        (runTrace 10 (thrTrace ++ [Op.micro])).log) := by
  refine ⟨?_, ?_, ?_⟩
  · have hdone : (flushLoop 10 0 (runTrace 10 okTrace)).2.2 = FOut.done := by decide
    refine spec_c4_flush_failure.1 10 0 (runTrace 10 okTrace)
      (flushLoop 10 0 (runTrace 10 okTrace)).1
      (flushLoop 10 0 (runTrace 10 okTrace)).2.1 (runTrace_facts 10 okTrace).1 ?_
    rw [← hdone]
  · have hab : (flushLoop 10 0 (runTrace 10 thrTrace)).2.2 = FOut.aborted := by decide
    refine spec_c4_flush_failure.2.1 10 0 (runTrace 10 thrTrace)
      (flushLoop 10 0 (runTrace 10 thrTrace)).1
      (flushLoop 10 0 (runTrace 10 thrTrace)).2.1 (runTrace_facts 10 thrTrace).1
      (by decide) ?_
    rw [← hab]
  · refine spec_c4_flush_failure.2.2 10 [Op.writeOp 0 (DExpr.lit (Val.num 2)), Op.micro] _
      (by decide) (by decide) ?_ ?_
    · exact (runTrace_facts 10 _).2.1
    · intro op hop
      rcases List.mem_cons.mp hop with rfl | hop2
      · exact Or.inl ⟨0, DExpr.lit (Val.num 2), rfl⟩
      · rcases List.mem_cons.mp hop2 with rfl | hop3
        · exact Or.inr rfl
        · cases hop3

theorem disposeRun_proj (e : Nat) (st : St) :
    (disposeRun e st).nsigs = st.nsigs ∧ (disposeRun e st).queue = st.queue ∧
    (disposeRun e st).neffs = st.neffs := by
  unfold disposeRun
  by_cases he : e < st.neffs
  · rw [if_pos he]
    exact ⟨rfl, rfl, rfl⟩
  · rw [if_neg he]
    exact ⟨rfl, rfl, rfl⟩

/-- C5 counterexample: the claim as stated is false when a write before
disposal has already enqueued the effect's run.  The trace creates an
effect reading signal 0, writes (enqueuing the rerun and arranging a
flush), disposes the effect, then the microtask fires.  The log shows a
`beginEv 0` AFTER `disposeEv 0`: the disposed effect's run procedure was
invoked by the flush, because disposal does not remove the already-queued
job; the rerun even re-subscribes the disposed effect to the signal. -/
theorem spec_c5_disposed_run_invoked_cex :
    (runTrace 10 dispTrace).log =
      [Ev.beginEv 0, Ev.readEv 0 0, Ev.disposeEv 0, Ev.beginEv 0, Ev.readEv 0 0] ∧
    0 ∈ ((runTrace 10 dispTrace).sigs 0).subs := by
  constructor
  · decide
  · decide

/-- C5 amended: the disposer runs the pending cleanups in order and
removes the effect from every subscriber set, so a write performed after
disposal never schedules the disposed effect's run; however, a run that a
pre-disposal write had already placed in the scheduler queue is still
invoked by the next completed flush (disposal does not dequeue it — see
the counterexample). -/
theorem spec_c5_dispose_amended (e : Nat) (st : St) (hinv : Inv st) (hctx : st.ctx = none)
    (he : e < st.neffs) :
    (disposeRun e st).log =
        st.log ++ (st.effs e).cleanups.map Ev.cleanEv ++ [Ev.disposeEv e] ∧
    (∀ s, s < st.nsigs → e ∉ ((disposeRun e st).sigs s).subs) ∧
    (∀ s arg, e ∈ (writeVal s arg (disposeRun e st)).queue → e ∈ st.queue) ∧
    (∀ fuel st2 L, flushLoop fuel 0 (disposeRun e st) = (st2, L, FOut.done) →
        ∀ j ∈ st.queue, j ∈ L) := by
  have hts := disposeRun_tstep e st hinv hctx
  obtain ⟨hnsigs, hqueue, hneffs⟩ := disposeRun_proj e st
  have hlog : (disposeRun e st).log =
      st.log ++ (st.effs e).cleanups.map Ev.cleanEv ++ [Ev.disposeEv e] := by
    unfold disposeRun
    rw [if_pos he]
  have hnotin : ∀ s, s < st.nsigs → e ∉ ((disposeRun e st).sigs s).subs := by
    intro s hs hcontra
    have hs2 : s < (disposeRun e st).nsigs := by
      rw [hnsigs]
      exact hs
    have h2 := (hts.inv.subsEq s hs2 e).mp hcontra
    rw [hlog, dispAfter_snoc_dispose_self2] at h2
    exact absurd h2.2.2 (by simp)
  refine ⟨hlog, hnotin, ?_, ?_⟩
  · intro s arg hmem
    rcases writeVal_mem_inv hmem with h2 | h2
    · rw [hqueue] at h2
      exact h2
    · by_cases hs : s < st.nsigs
      · exact absurd h2 (hnotin s hs)
      · have hs2 : (disposeRun e st).nsigs ≤ s := by
          rw [hnsigs]
          omega
        rw [hts.inv.sigsHi s hs2] at h2
        cases h2
  · intro fuel st2 L heq j hj
    obtain ⟨q, hpref, hL, _, _⟩ := flushLoop_done fuel 0 _ st2 L hts.inv heq
    rw [hL]
    have hj2 : j ∈ (disposeRun e st).queue := by
      rw [hqueue]
      exact hj
    simpa using hpref.mem hj2

/-- Witness for the amended C5: disposing the effect that already has its
rerun queued removes its subscription, a later write does not reschedule
it, and the queued rerun is nevertheless among the jobs the flush runs. -/
theorem spec_c5_dispose_amended_witness :
    ((disposeRun 0 (runTrace 10 okTrace)).log = (runTrace 10 okTrace).log ++
        ((runTrace 10 okTrace).effs 0).cleanups.map Ev.cleanEv ++ [Ev.disposeEv 0]) ∧
    (0 ∉ ((disposeRun 0 (runTrace 10 okTrace)).sigs 0).subs) ∧
    (0 ∈ (writeVal 0 (Val.num 5) (disposeRun 0 (runTrace 10 okTrace))).queue →
      0 ∈ (runTrace 10 okTrace).queue) ∧
    (∀ j ∈ (runTrace 10 okTrace).queue,
      j ∈ (flushLoop 10 0 (disposeRun 0 (runTrace 10 okTrace))).2.1) := by
  have h := spec_c5_dispose_amended 0 (runTrace 10 okTrace) (runTrace_facts 10 _).1
    (runTrace_facts 10 _).2.1 (by decide)
  refine ⟨h.1, h.2.1 0 (by decide), h.2.2.1 0 (Val.num 5), ?_⟩
  intro j hj
  have hdone : (flushLoop 10 0 (disposeRun 0 (runTrace 10 okTrace))).2.2 = FOut.done := by
    decide
  refine h.2.2.2 10 (flushLoop 10 0 (disposeRun 0 (runTrace 10 okTrace))).1
    (flushLoop 10 0 (disposeRun 0 (runTrace 10 okTrace))).2.1 ?_ j hj
  rw [← hdone]

theorem isExc_eq_exc {r : Res} (h : r.isExc = true) : r = Res.exc r.state := by
  cases r with
  | ok st => simp [Res.isExc] at h
  | exc st => rfl

/-- C9: `ignore(fn)` restores the prior tracking context on exit whether
`fn` returns or throws; on return it yields `fn`'s result; while `fn`
runs no tracking context is active, so an enclosing running effect gains
no dependency edge from any signal read inside `fn` (its dependency set
and its membership in every subscriber set are unchanged); likewise an
effect's run restores the previously active context even when the body
throws (the exception propagating as the `exc` result). -/
theorem spec_c9_context_restore :
    (∀ (cs : List Cmd) (r : DExpr) (st : St),
        ((ignoreRun cs r st).2).state.ctx = st.ctx) ∧
    (∀ (cs : List Cmd) (r : DExpr) (st st1 : St),
        runCmds cs { st with ctx := none } = Res.ok st1 →
        (ignoreRun cs r st).1 = some (evalDExpr r st1).1) ∧
    (∀ (cs : List Cmd) (r : DExpr) (st : St) (e : Nat), Inv st → st.ctx = some e →
        (((ignoreRun cs r st).2).state.effs e).deps = (st.effs e).deps ∧
        ∀ s, s < st.nsigs →
          (e ∈ (((ignoreRun cs r st).2).state.sigs s).subs ↔ e ∈ (st.sigs s).subs)) ∧
    (∀ (e : Nat) (st st2 : St), runEffectTop e st = Res.exc st2 → st2.ctx = st.ctx) := by
  refine ⟨?_, ?_, ?_, ?_⟩
  · intro cs r st
    unfold ignoreRun
    cases hres : runCmds cs { st with ctx := none } with
    | ok st1 => rfl
    | exc st1 => rfl
  · intro cs r st st1 hres
    unfold ignoreRun
    rw [hres]
  · intro cs r st e hinv hctx
    obtain ⟨he, hd⟩ := hinv.ctxWf e hctx
    have main : ∀ st1 : St, Steps { st with ctx := none } st1 →
        ((st1.effs e).deps = (st.effs e).deps ∧
          ∀ s, s < st.nsigs → (e ∈ (st1.sigs s).subs ↔ e ∈ (st.sigs s).subs)) := by
      intro st1 hS
      obtain ⟨ext, hl, hkinds, htouch⟩ := hS.logExt
      have hunt : ∀ ev ∈ ext, ¬ EvTouches e ev :=
        htouch e he (fun hcon => Option.noConfusion hcon)
      have hre : readsAfter e st1.log = readsAfter e st.log := by
        rw [hl]
        exact readsAfter_untouched hunt
      have hde : dispAfter e st1.log = dispAfter e st.log := by
        rw [hl]
        exact dispAfter_untouched hunt
      constructor
      · rw [hS.inv.depsEq e (lt_of_lt_of_le he hS.neffsLe), hre, ← hinv.depsEq e he]
      · intro s hs
        rw [hS.inv.subsEq s (lt_of_lt_of_le hs hS.nsigsLe) e, hinv.subsEq s hs e, hre, hde]
        constructor
        · rintro ⟨_, h2, h3⟩
          exact ⟨he, h2, h3⟩
        · rintro ⟨_, h2, h3⟩
          exact ⟨lt_of_lt_of_le he hS.neffsLe, h2, h3⟩
    have hinv0 := inv_ctx_none hinv
    have hb := runCmds_steps cs { st with ctx := none } hinv0
    cases hres : runCmds cs { st with ctx := none } with
    | ok st1 =>
        rw [hres] at hb
        simp only [Res.state] at hb
        have hbe := evalDExpr_steps r st1 hb.inv
        have hS := hb.transS hbe
        have hm := main _ hS
        have hgoal : ((ignoreRun cs r st).2).state =
            { (evalDExpr r st1).2 with ctx := st.ctx } := by
          unfold ignoreRun
          rw [hres]
          rfl
        rw [hgoal]
        exact hm
    | exc st1 =>
        rw [hres] at hb
        simp only [Res.state] at hb
        have hm := main _ hb
        have hgoal : ((ignoreRun cs r st).2).state = { st1 with ctx := st.ctx } := by
          unfold ignoreRun
          rw [hres]
          rfl
        rw [hgoal]
        exact hm
  · intro e st st2 heq
    unfold runEffectTop at heq
    cases hres : runCmds (st.effs e).bodyCmds (preRun e st) with
    | ok st3 =>
        rw [hres] at heq
        simp only [postRun] at heq
        exact Res.noConfusion heq
    | exc st3 =>
        rw [hres] at heq
        simp only [postRun] at heq
        have h2 := Res.exc.inj heq
        rw [← h2]

/-- Witness for C9: a concrete `ignore` of a tracked read inside a
running effect restores the saved context, returns the literal result,
and leaves the enclosing effect's dependency set unchanged; a concrete
throwing rerun restores the top-level (empty) context. -/
theorem spec_c9_context_restore_witness :
    (((ignoreRun [Cmd.readC 0] (DExpr.lit (Val.num 7))
        { runTrace 5 okTrace with ctx := some 0 }).2).state.ctx = some 0) ∧
    ((ignoreRun [Cmd.readC 0] (DExpr.lit (Val.num 7))
        { runTrace 5 okTrace with ctx := some 0 }).1 = some (Val.num 7)) ∧
    ((((ignoreRun [Cmd.readC 0] (DExpr.lit (Val.num 7))
        { runTrace 5 okTrace with ctx := some 0 }).2).state.effs 0).deps =
      (({ runTrace 5 okTrace with ctx := some 0 } : St).effs 0).deps) ∧
    ((runEffectTop 1 (runTrace 5 thrTrace)).state.ctx = (runTrace 5 thrTrace).ctx) := by
  have h := spec_c9_context_restore
  have hinv0 := (runTrace_facts 5 okTrace).1
  have hctxWf : ∀ e2, (some 0 : Option Nat) = some e2 →
      e2 < (runTrace 5 okTrace).neffs ∧ dispAfter e2 (runTrace 5 okTrace).log = false := by
    intro e2 h2
    cases h2
    exact ⟨by decide, by decide⟩
  have hinvC : Inv { runTrace 5 okTrace with ctx := some 0 } :=
    ⟨hinv0.logWf, hinv0.depsEq, hinv0.subsEq, hctxWf, hinv0.queueWf, hinv0.queueNd,
      hinv0.subsNd, hinv0.sigsHi, hinv0.effsHi⟩
  have hok : runCmds [Cmd.readC 0]
      { ({ runTrace 5 okTrace with ctx := some 0 } : St) with ctx := none } =
      Res.ok (readSig 0
        { ({ runTrace 5 okTrace with ctx := some 0 } : St) with ctx := none }).2 := by
    simp [runCmds, runCmd]
  have hexc : runEffectTop 1 (runTrace 5 thrTrace) =
      Res.exc ((runEffectTop 1 (runTrace 5 thrTrace)).state) :=
    isExc_eq_exc (by decide)
  exact ⟨h.1 [Cmd.readC 0] (DExpr.lit (Val.num 7)) { runTrace 5 okTrace with ctx := some 0 },
    h.2.1 [Cmd.readC 0] (DExpr.lit (Val.num 7)) { runTrace 5 okTrace with ctx := some 0 } _ hok,
    (h.2.2.1 [Cmd.readC 0] (DExpr.lit (Val.num 7))
      { runTrace 5 okTrace with ctx := some 0 } 0 hinvC rfl).1,
    h.2.2.2 1 (runTrace 5 thrTrace) _ hexc⟩

/-- C8: `computed(derive)` allocates an internal signal and an internal
effect whose body writes `derive`'s result into it.  Construction runs
the derive body exactly once, synchronously (its begin marker is appended
exactly once); the stored value right after construction is the pure
value of the derive expression over the current signal values (when that
value is not a function — a function result would be misapplied as an
updater, see C6); and on any later rerun of the internal body, an
identity-equal recomputation leaves the scheduler queue unchanged
(nothing propagates to the computed's subscribers), while a changed
recomputation enqueues every current subscriber of the internal
signal. -/
theorem spec_c8_computed (d : DExpr) (st : St) :
    (Inv st →
      ∃ rest, (computedOp d st).log = st.log ++ Ev.beginEv st.neffs :: rest ∧
        ∀ ev ∈ rest, ev ≠ Ev.beginEv st.neffs) ∧
    (isFn (pureEval d (valsOf (newSigRun Val.undef st)) (st.nsigs + 1)) = false →
      ((computedOp d st).sigs st.nsigs).value =
        pureEval d (valsOf (newSigRun Val.undef st)) (st.nsigs + 1)) ∧
    (∀ (sid : Nat) (st2 : St),
      candidateVal (((evalDExpr d st2).2.sigs sid).value) (evalDExpr d st2).1 =
        ((evalDExpr d st2).2.sigs sid).value →
      (runCmds [Cmd.writeC sid d] st2).state.queue = st2.queue) ∧
    (∀ (sid : Nat) (st2 : St) (e2 : Nat), sid < st2.nsigs →
      candidateVal (((evalDExpr d st2).2.sigs sid).value) (evalDExpr d st2).1 ≠
        ((evalDExpr d st2).2.sigs sid).value →
      e2 ∈ ((evalDExpr d st2).2.sigs sid).subs →
      e2 ∈ (runCmds [Cmd.writeC sid d] st2).state.queue) := by
  refine ⟨?_, ?_, ?_, ?_⟩
  · intro hinv
    have hinv1 := (newSigRun_tstep Val.undef st hinv).inv
    have hinvA := alloc_inv [Cmd.writeC st.nsigs d] none (newSigRun Val.undef st) hinv1
    have hfacts := runEffectTop_facts (newSigRun Val.undef st).neffs
      { newSigRun Val.undef st with
        effs := Function.update (newSigRun Val.undef st).effs (newSigRun Val.undef st).neffs
          ⟨[Cmd.writeC st.nsigs d], none, [], []⟩,
        neffs := (newSigRun Val.undef st).neffs + 1 }
      hinvA (Nat.lt_succ_self _)
    obtain ⟨rest, hlog, hkinds⟩ := hfacts.logExt
    simp only [Function.update_same, List.map_nil, List.append_nil] at hlog
    refine ⟨rest, ?_, ?_⟩
    · simp only [computedOp]
      rw [newEffRun_eq_top, hlog]
      rfl
    · intro ev hev
      rcases hkinds ev hev with ⟨a, b, rfl⟩ | ⟨a, rfl, ha⟩
      · simp
      · intro hcon
        have ha2 : st.neffs + 1 ≤ a := ha
        have ha3 : a = st.neffs := Ev.beginEv.inj hcon
        omega
  · intro hfn
    simp only [computedOp]
    rw [newEffRun_eq_top]
    simp only [runEffectTop, Function.update_same]
    rw [runCmds_single_write]
    simp only [postRun, regRet, Res.state]
    have hs : st.nsigs < (evalDExpr d (preRun (newSigRun Val.undef st).neffs
        { newSigRun Val.undef st with
          effs := Function.update (newSigRun Val.undef st).effs
            (newSigRun Val.undef st).neffs ⟨[Cmd.writeC st.nsigs d], none, [], []⟩,
          neffs := (newSigRun Val.undef st).neffs + 1 })).2.nsigs := by
      rw [(evalDExpr_spec d _).2.2.1]
      exact Nat.lt_succ_self _
    rw [writeVal_value _ _ _ hs]
    have hvals : ∀ x, valsOf (preRun (newSigRun Val.undef st).neffs
        { newSigRun Val.undef st with
          effs := Function.update (newSigRun Val.undef st).effs
            (newSigRun Val.undef st).neffs ⟨[Cmd.writeC st.nsigs d], none, [], []⟩,
          neffs := (newSigRun Val.undef st).neffs + 1 }) x =
        valsOf (newSigRun Val.undef st) x := by
      intro x
      rw [preRun_vals]
      rfl
    have hv1 : (evalDExpr d (preRun (newSigRun Val.undef st).neffs
        { newSigRun Val.undef st with
          effs := Function.update (newSigRun Val.undef st).effs
            (newSigRun Val.undef st).neffs ⟨[Cmd.writeC st.nsigs d], none, [], []⟩,
          neffs := (newSigRun Val.undef st).neffs + 1 })).1 =
        pureEval d (valsOf (newSigRun Val.undef st)) (st.nsigs + 1) := by
      rw [(evalDExpr_spec d _).1, pureEval_congr d _ _ _ hvals]
      rfl
    rw [hv1, candidateVal_not_fn hfn]
  · intro sid st2 hid
    rw [runCmds_single_write]
    show (writeVal sid (evalDExpr d st2).1 (evalDExpr d st2).2).queue = st2.queue
    rw [writeVal_noop hid]
    exact (evalDExpr_spec d st2).2.2.2
  · intro sid st2 e2 hs hne hmem
    rw [runCmds_single_write]
    show e2 ∈ (writeVal sid (evalDExpr d st2).1 (evalDExpr d st2).2).queue
    refine writeVal_notifies ?_ hne hmem
    rw [(evalDExpr_spec d st2).2.2.1]
    exact hs

/-- Witness for C8: a concrete computed over a read of signal 0 runs its
derive once at construction (one begin marker), stores the derived value,
skips the queue entirely on an identity-equal recomputation, and enqueues
the concrete subscriber of the internal signal on a changed one. -/
theorem spec_c8_computed_witness :
    (∃ rest, (computedOp (DExpr.readS 0) (runTrace 5 okTrace)).log =
        (runTrace 5 okTrace).log ++ Ev.beginEv 1 :: rest ∧
        ∀ ev ∈ rest, ev ≠ Ev.beginEv 1) ∧
    (((computedOp (DExpr.readS 0) (runTrace 5 okTrace)).sigs 1).value =
      pureEval (DExpr.readS 0) (valsOf (newSigRun Val.undef (runTrace 5 okTrace))) 2) ∧
    ((runCmds [Cmd.writeC 1 (DExpr.readS 0)]
        (computedOp (DExpr.readS 0) (runTrace 5 okTrace))).state.queue =
      (computedOp (DExpr.readS 0) (runTrace 5 okTrace)).queue) ∧
    (2 ∈ (runCmds [Cmd.writeC 1 (DExpr.readS 0)]
        (writeVal 0 (Val.num 5) (newEffRun [Cmd.readC 1] none
          (computedOp (DExpr.readS 0) (runTrace 5 okTrace))))).state.queue) := by
  have h := spec_c8_computed (DExpr.readS 0) (runTrace 5 okTrace)
  exact ⟨h.1 (runTrace_facts 5 okTrace).1,
    h.2.1 (by decide),
    h.2.2.1 1 (computedOp (DExpr.readS 0) (runTrace 5 okTrace)) (by decide),
    h.2.2.2 1 (writeVal 0 (Val.num 5) (newEffRun [Cmd.readC 1] none
      (computedOp (DExpr.readS 0) (runTrace 5 okTrace)))) 2 (by decide) (by decide)
      (by decide)⟩

end Bup
